import Mathlib

set_option maxRecDepth 100000

deriving instance DecidableEq for Except

/-!
Verification of the concurrent data-structure homework library
(split-ordered hash map, growable trie-array, hazard pointers,
optimistic list set, thread pool, single-flight cache).

The Rust sources are shallowly embedded as executable Lean functions.
Stateful code becomes explicit state passing; the sequential semantics
models each atomic operation (load, store, successful CAS) directly, and
for the concurrent components a small-step interleaving relation is used
in which every lock-protected critical section of the source is one
atomic transition.  Machine words are Nat; null pointers are 0.

External dependencies of the homework crate that belong to the course
repository but are not among the given sources (the Harris-Michael list
`cs431::lockfree::list` and the sequence lock `cs431::lock::seqlock`)
are modelled from the specification, as marked on their definitions.
-/

namespace SO

/-- Bit-reversal helper: `revAux k n` reverses the low `n` bits of `k`
(bit 0 becomes bit `n-1`).  `revAux k 64` is `usize::reverse_bits` on a
64-bit machine. -/
def revAux : Nat → Nat → Nat
  | _, 0 => 0
  | k, n + 1 => revAux (k / 2) n + (k % 2) * 2 ^ n

/-- Embedding of `usize::reverse_bits` (64-bit). -/
def revBits64 (k : Nat) : Nat := revAux k 64

/-- Fuel-indexed form of the parent-finding loop in
`SplitOrderedList::lookup_bucket` (split_ordered_list.rs lines 75-81):
`let mut parent = size; loop { parent >>= 1; if parent <= index break }`.
The fuel only bounds the number of iterations so that the recursion is
structural; `halveUntilLe` supplies enough fuel for every halving chain. -/
def halveUntilLeF : Nat → Nat → Nat → Nat
  | 0, _, _ => 0
  | fuel + 1, p, index =>
    let q := p / 2
    if q ≤ index then q else halveUntilLeF fuel q index

/-- Embedding of the parent-finding loop: the halving chain from `p`
reaches a value at most `index` after at most `p` iterations. -/
def halveUntilLe (p index : Nat) : Nat := halveUntilLeF p p index

/-- List node of the shared Harris-Michael list: key and optional value
(`None` marks a bucket sentinel). -/
abbrev SNode (V : Type) := Nat × Option V

/-- Sequential state of a `SplitOrderedList`: the sorted lock-free list,
the bucket directory (association list standing for the growable array
of bucket cells: bucket index paired with the stored sentinel node key),
and the two counters. -/
structure SOState (V : Type) where
  list : List (SNode V)
  buckets : List (Nat × Nat)
  size : Nat
  count : Nat
deriving DecidableEq

/-- Fresh `SplitOrderedList`: empty list, empty directory, size 2, count 0. -/
def initSO (V : Type) : SOState V := ⟨[], [], 2, 0⟩

/-- Load of a bucket cell of the directory. -/
def bucketGet (bs : List (Nat × Nat)) (b : Nat) : Option Nat :=
  (bs.find? (fun e => e.1 == b)).map (·.2)

/-- Store into a bucket cell of the directory. -/
def bucketStore (bs : List (Nat × Nat)) (b nk : Nat) : List (Nat × Nat) :=
  (b, nk) :: bs

/-- Modelled from the spec (section 4.C): the scanning loop of
`find_harris_michael` — the number of leading nodes with key strictly
below the target. -/
def scanLen : List (SNode V) → Nat → Nat
  | [], _ => 0
  | e :: rest, x => if e.1 < x then scanLen rest x + 1 else 0

/-- Modelled from the spec (section 4.C): `find_harris_michael` advances a
cursor to the first node with key at least the target.  `findHMPos l p x`
is the resulting position when scanning starts at position `p`. -/
def findHMPos (l : List (SNode V)) (p x : Nat) : Nat :=
  p + scanLen (l.drop p) x

/-- Modelled from the spec (section 4.C): whether `find_harris_michael`
reports the key as found at the position `findHMPos` stops at. -/
def foundAt (l : List (SNode V)) (p x : Nat) : Bool :=
  match l.get? (findHMPos l p x) with
  | some e => e.1 == x
  | none => false

/-- Modelled from the spec (section 4.C): `Cursor::insert` links a new
node in front of the cursor position. -/
def insertAt : List α → Nat → α → List α
  | l, 0, a => a :: l
  | [], _ + 1, a => [a]
  | b :: l, q + 1, a => b :: insertAt l q a

/-- Modelled from the spec (section 4.C): `Cursor::delete` unlinks the
node at the cursor position. -/
def removeAt (l : List α) (q : Nat) : List α := l.take q ++ l.drop (q + 1)

/-- Modelled from the spec (section 4.C): `Cursor::lookup` reads the
value of the node at the cursor position. -/
def valueAt (l : List (SNode V)) (q : Nat) : Option V := (l.get? q).bind (·.2)

/-- Position of the node a bucket cell points to (node keys are unique
in a sorted list, so the stored pointer is identified by its key). -/
def posOfKey (l : List (SNode V)) (nk : Nat) : Nat :=
  l.findIdx (fun e => e.1 == nk)

/-- Fuel-indexed embedding of `SplitOrderedList::lookup_bucket`
(split_ordered_list.rs lines 52-101).  Returns the updated state and the
cursor position of the bucket sentinel.  The fuel only makes the
recursion structural; the parent index strictly decreases whenever size
is at least 2, so `index + 1` fuel (supplied by `lookupBucket`) always
suffices on such states. -/
def lookupBucketF : Nat → SOState V → Nat → SOState V × Nat
  | 0, s, _ => (s, 0)
  | fuel + 1, s, index =>
    match bucketGet s.buckets index with
    | some nk => (s, posOfKey s.list nk)
    | none =>
      if index = 0 then
        ({ s with list := insertAt s.list 0 (revBits64 0, none),
                  buckets := bucketStore s.buckets 0 (revBits64 0) }, 0)
      else
        let par := halveUntilLe s.size index
        let pidx := index - par
        let r := lookupBucketF fuel s pidx
        let sk := revBits64 index
        let q := findHMPos r.1.list r.2 sk
        if foundAt r.1.list r.2 sk then (r.1, q)
        else ({ r.1 with list := insertAt r.1.list q (sk, none),
                         buckets := bucketStore r.1.buckets index sk }, q)

/-- Embedding of `SplitOrderedList::lookup_bucket`. -/
def lookupBucket (s : SOState V) (index : Nat) : SOState V × Nat :=
  lookupBucketF (index + 1) s index

/-- Embedding of `SplitOrderedList::find`
(split_ordered_list.rs lines 105-119): returns updated state, whether
the split-ordered key was found, and the cursor position. -/
def findSO (s : SOState V) (k : Nat) : SOState V × Bool × Nat :=
  let b := k % s.size
  let spl := revBits64 k ||| 1
  let r := lookupBucket s b
  (r.1, foundAt r.1.list r.2 spl, findHMPos r.1.list r.2 spl)

/-- `SplitOrderedList::LOAD_FACTOR` (split_ordered_list.rs line 43). -/
def LOAD_FACTOR : Nat := 2

/-- Embedding of `SplitOrderedList::resize`
(split_ordered_list.rs lines 125-135): doubles `size` exactly when
`count / size > LOAD_FACTOR` (integer division). -/
def resizeSO (s : SOState V) : SOState V :=
  if s.count / s.size > LOAD_FACTOR then { s with size := s.size * 2 } else s

/-- Embedding of `SplitOrderedList::insert`
(split_ordered_list.rs lines 151-173).  On success the count is bumped
and `resize` runs; on a found key the supplied value is handed back. -/
def insertSO (s : SOState V) (k : Nat) (v : V) : Except V Unit × SOState V :=
  let spl := revBits64 k ||| 1
  let r := findSO s k
  if r.2.1 then (.error v, r.1)
  else
    let s2 : SOState V :=
      { r.1 with list := insertAt r.1.list r.2.2 (spl, some v),
                 count := r.1.count + 1 }
    (.ok (), resizeSO s2)

/-- Embedding of `SplitOrderedList::delete`
(split_ordered_list.rs lines 175-191).  The `None` fallback of the inner
match mirrors the `unwrap` on the node value, which cannot fire on a
well-formed state (found user keys map to `Some`). -/
def deleteSO (s : SOState V) (k : Nat) : Except Unit V × SOState V :=
  let r := findSO s k
  if r.2.1 then
    match valueAt r.1.list r.2.2 with
    | some v =>
        (.ok v, { r.1 with list := removeAt r.1.list r.2.2,
                           count := r.1.count - 1 })
    | none => (.error (), r.1)
  else (.error (), r.1)

/-- Embedding of `SplitOrderedList::lookup`
(split_ordered_list.rs lines 139-149). -/
def lookupSO (s : SOState V) (k : Nat) : Option V × SOState V :=
  let r := findSO s k
  (if r.2.1 then valueAt r.1.list r.2.2 else none, r.1)

/-- The parent bucket index computed by `lookup_bucket`
(split_ordered_list.rs line 82): `index - parent` where `parent` is the
result of the halving loop. -/
def parentIdx (size b : Nat) : Nat := b - halveUntilLe size b

/-- On a power-of-two size, the halving loop stops exactly at the
highest power of two at most `b` (for `1 ≤ b < size`). -/
theorem halveUntilLeF_pow2 :
    ∀ e fuel b, 1 ≤ b → b < 2 ^ e → e ≤ fuel →
      halveUntilLeF fuel (2 ^ e) b = 2 ^ Nat.log 2 b := by
  intro e
  induction e with
  | zero => intro fuel b hb1 hb2 _; omega
  | succ e ih =>
    intro fuel b hb1 hb2 hf
    cases fuel with
    | zero => omega
    | succ f =>
      have hq : (2 : Nat) ^ (e + 1) / 2 = 2 ^ e := by
        rw [pow_succ]
        exact Nat.mul_div_cancel _ (by norm_num)
      by_cases hle : 2 ^ e ≤ b
      · have hlog : Nat.log 2 b = e := Nat.log_eq_of_pow_le_of_lt_pow hle hb2
        simp [halveUntilLeF, hq, hle, hlog]
      · have hlt : b < 2 ^ e := Nat.lt_of_not_le hle
        simp only [halveUntilLeF, hq]
        rw [if_neg hle]
        exact ih f b hb1 hlt (by omega)

/-- The halving loop on a power-of-two size, with the default fuel. -/
theorem halveUntilLe_pow2 (e b : Nat) (hb1 : 1 ≤ b) (hb2 : b < 2 ^ e) :
    halveUntilLe (2 ^ e) b = 2 ^ Nat.log 2 b :=
  halveUntilLeF_pow2 e (2 ^ e) b hb1 hb2 (Nat.le_of_lt (Nat.lt_two_pow e))

/-- The parent of bucket 0 is 0 (not used by the source, which never
recurses from index 0, but convenient for iteration). -/
theorem parentIdx_zero (size : Nat) : parentIdx size 0 = 0 := by
  simp [parentIdx]

/-- The parent index clears the highest set bit. -/
theorem parentIdx_eq (e b : Nat) (hb1 : 0 < b) (hb2 : b < 2 ^ e) :
    parentIdx (2 ^ e) b = b - 2 ^ Nat.log 2 b := by
  rw [parentIdx, halveUntilLe_pow2 e b hb1 hb2]

/-- The parent index is strictly smaller and below the cleared bit. -/
theorem parentIdx_lt (e b : Nat) (hb1 : 0 < b) (hb2 : b < 2 ^ e) :
    parentIdx (2 ^ e) b < 2 ^ Nat.log 2 b ∧ parentIdx (2 ^ e) b < b := by
  rw [parentIdx_eq e b hb1 hb2]
  have h1 : 2 ^ Nat.log 2 b ≤ b := Nat.pow_log_le_self 2 (by omega)
  have h2 : b < 2 ^ (Nat.log 2 b + 1) := Nat.lt_pow_succ_log_self (by norm_num) b
  have h3 : (2 : Nat) ^ (Nat.log 2 b + 1) = 2 ^ Nat.log 2 b * 2 := pow_succ 2 _
  omega

/-- Iterating the parent map from below `2 ^ m` reaches 0 in `m` steps. -/
theorem parentIdx_iter_zero (e : Nat) :
    ∀ m b, b < 2 ^ m → b < 2 ^ e → (parentIdx (2 ^ e))^[m] b = 0 := by
  intro m
  induction m with
  | zero => intro b hb _; interval_cases b; simp
  | succ m ih =>
    intro b hb hbe
    rw [Function.iterate_succ_apply]
    rcases Nat.eq_zero_or_pos b with h0 | hpos
    · subst h0
      rw [parentIdx_zero]
      exact ih 0 (Nat.pos_pow_of_pos m (by norm_num)) hbe
    · have hlt := parentIdx_lt e b hpos hbe
      have h2 : b < 2 ^ (Nat.log 2 b + 1) := Nat.lt_pow_succ_log_self (by norm_num) b
      have hlogm : Nat.log 2 b < m + 1 := by
        have := Nat.pow_log_le_self 2 (show b ≠ 0 by omega)
        by_contra hc
        have : 2 ^ (m + 1) ≤ 2 ^ Nat.log 2 b :=
          Nat.pow_le_pow_right (by norm_num) (by omega)
        omega
      have hmono : (2 : Nat) ^ Nat.log 2 b ≤ 2 ^ m :=
        Nat.pow_le_pow_right (by norm_num) (by omega)
      exact ih _ (by omega) (by omega)

/-- Bit reversal of 0 is 0. -/
theorem revAux_zero : ∀ n, revAux 0 n = 0
  | 0 => rfl
  | n + 1 => by
    show revAux (0 / 2) n + 0 % 2 * 2 ^ n = 0
    rw [Nat.zero_div, revAux_zero n]
    simp

/-- Bit reversal of the low `n` bits stays below `2 ^ n`. -/
theorem revAux_lt : ∀ n k, revAux k n < 2 ^ n := by
  intro n
  induction n with
  | zero => intro k; exact Nat.lt_of_le_of_lt (Nat.le_refl 0) Nat.one_pos
  | succ n ih =>
    intro k
    show revAux (k / 2) n + k % 2 * 2 ^ n < 2 ^ (n + 1)
    have h1 := ih (k / 2)
    have h2 : k % 2 ≤ 1 := by omega
    have h3 : k % 2 * 2 ^ n ≤ 2 ^ n := by
      calc k % 2 * 2 ^ n ≤ 1 * 2 ^ n := Nat.mul_le_mul_right _ h2
      _ = 2 ^ n := Nat.one_mul _
    have h4 : (2 : Nat) ^ (n + 1) = 2 ^ n + 2 ^ n := by
      rw [pow_succ]
      omega
    omega

/-- The parity of a bit reversal is the dropped top bit. -/
theorem revAux_mod_two : ∀ n k, revAux k (n + 1) % 2 = k / 2 ^ n % 2 := by
  intro n
  induction n with
  | zero =>
    intro k
    show (revAux (k / 2) 0 + k % 2 * 2 ^ 0) % 2 = _
    simp [revAux]
  | succ n ih =>
    intro k
    show (revAux (k / 2) (n + 1) + k % 2 * 2 ^ (n + 1)) % 2 = _
    have hp : (2 : Nat) ^ (n + 1) = 2 * 2 ^ n := by
      rw [pow_succ, Nat.mul_comm]
    have h1 : k % 2 * 2 ^ (n + 1) % 2 = 0 := by
      rw [hp, Nat.mul_left_comm]
      exact Nat.mul_mod_right 2 _
    have h2 : (revAux (k / 2) (n + 1) + k % 2 * 2 ^ (n + 1)) % 2
        = revAux (k / 2) (n + 1) % 2 := by
      omega
    rw [h2, ih (k / 2), Nat.div_div_eq_div_mul, ← hp]

/-- Reversal of the low bits of a truncated number is at most the
reversal of the whole number (truncation only clears summands). -/
theorem revAux_mod_le : ∀ n e k, revAux (k % 2 ^ e) n ≤ revAux k n := by
  intro n
  induction n with
  | zero => intro e k; exact Nat.le_refl 0
  | succ n ih =>
    intro e k
    cases e with
    | zero =>
      rw [pow_zero, Nat.mod_one, revAux_zero]
      exact Nat.zero_le _
    | succ e =>
      have hp : (2 : Nat) ^ (e + 1) = 2 * 2 ^ e := by
        rw [pow_succ, Nat.mul_comm]
      have hdiv : k % 2 ^ (e + 1) / 2 = k / 2 % 2 ^ e := by
        rw [hp]
        exact Nat.mod_mul_right_div_self k 2 (2 ^ e)
      have hmod : k % 2 ^ (e + 1) % 2 = k % 2 :=
        Nat.mod_mod_of_dvd k ⟨2 ^ e, by rw [pow_succ, Nat.mul_comm]⟩
      show revAux (k % 2 ^ (e + 1) / 2) n + k % 2 ^ (e + 1) % 2 * 2 ^ n ≤ _
      rw [hdiv, hmod]
      exact Nat.add_le_add_right (ih e (k / 2)) _

/-- Clearing a set bit strictly decreases the reversal: if bit `l` of
`k` is set and `l < n`, the reversal of `k mod 2 ^ l` (all higher bits
cleared) is strictly below the reversal of `k`. -/
theorem revAux_mod_lt : ∀ n l k, l < n → k / 2 ^ l % 2 = 1 →
    revAux (k % 2 ^ l) n < revAux k n := by
  intro n
  induction n with
  | zero => intro l k hl; omega
  | succ n ih =>
    intro l k hl hbit
    cases l with
    | zero =>
      rw [pow_zero, Nat.mod_one, revAux_zero]
      show 0 < revAux (k / 2) n + k % 2 * 2 ^ n
      rw [pow_zero, Nat.div_one] at hbit
      rw [hbit, Nat.one_mul]
      have hpow : 0 < 2 ^ n := Nat.pos_pow_of_pos n (by norm_num)
      omega
    | succ l =>
      have hp : (2 : Nat) ^ (l + 1) = 2 * 2 ^ l := by
        rw [pow_succ, Nat.mul_comm]
      have hdiv : k % 2 ^ (l + 1) / 2 = k / 2 % 2 ^ l := by
        rw [hp]
        exact Nat.mod_mul_right_div_self k 2 (2 ^ l)
      have hmod : k % 2 ^ (l + 1) % 2 = k % 2 :=
        Nat.mod_mod_of_dvd k ⟨2 ^ l, by rw [pow_succ, Nat.mul_comm]⟩
      have hbit2 : k / 2 / 2 ^ l % 2 = 1 := by
        rw [Nat.div_div_eq_div_mul, ← hp]
        exact hbit
      show revAux (k % 2 ^ (l + 1) / 2) n + k % 2 ^ (l + 1) % 2 * 2 ^ n < _
      rw [hdiv, hmod]
      exact Nat.add_lt_add_right (ih l (k / 2) (by omega) hbit2) _

/-- Bit reversal is injective below `2 ^ n`. -/
theorem revAux_inj : ∀ n a b, a < 2 ^ n → b < 2 ^ n →
    revAux a n = revAux b n → a = b := by
  intro n
  induction n with
  | zero => intro a b ha hb _; omega
  | succ n ih =>
    intro a b ha hb heq
    have hp : (2 : Nat) ^ (n + 1) = 2 * 2 ^ n := by
      rw [pow_succ, Nat.mul_comm]
    have hra := revAux_lt n (a / 2)
    have hrb := revAux_lt n (b / 2)
    have heq2 : revAux (a / 2) n + a % 2 * 2 ^ n
        = revAux (b / 2) n + b % 2 * 2 ^ n := heq
    rcases Nat.mod_two_eq_zero_or_one a with ha2 | ha2 <;>
      rcases Nat.mod_two_eq_zero_or_one b with hb2 | hb2 <;>
      rw [ha2, hb2] at heq2 <;>
      (have hd : a / 2 = b / 2 := ih (a / 2) (b / 2) (by omega) (by omega)
        (by omega) ;
       omega)

/-- The 64-bit reversal of a valid key (high bit clear) is even. -/
theorem revBits64_even (k : Nat) (h : k < 2 ^ 63) : revBits64 k % 2 = 0 := by
  show revAux k (63 + 1) % 2 = 0
  rw [revAux_mod_two 63 k, Nat.div_eq_of_lt h]

/-- Setting the low bit of an even number adds one. -/
theorem lor_one_even (x : Nat) (h : x % 2 = 0) : x ||| 1 = x + 1 := by
  apply Nat.eq_of_testBit_eq
  intro i
  cases i with
  | zero =>
    have h1 : (x + 1) % 2 = 1 := by omega
    simp [Nat.testBit_lor, Nat.testBit_zero, h, h1]
  | succ i =>
    rw [Nat.testBit_lor, Nat.testBit_succ, Nat.testBit_succ, Nat.testBit_succ]
    have h1 : (1 : Nat) / 2 = 0 := by norm_num
    have h2 : (x + 1) / 2 = x / 2 := by omega
    rw [h1, h2, Nat.zero_testBit]
    simp

/-- The sortedness predicate of the shared list: keys strictly
increase. -/
def SKeys (l : List (SNode V)) : Prop :=
  List.Pairwise (fun a b : SNode V => a.1 < b.1) l

/-- The scan never runs past the list. -/
theorem scanLen_le_length : ∀ (l : List (SNode V)) (x : Nat),
    scanLen l x ≤ l.length := by
  intro l
  induction l with
  | nil => intro x; exact Nat.le_refl 0
  | cons e rest ih =>
    intro x
    show (if e.1 < x then scanLen rest x + 1 else 0) ≤ rest.length + 1
    by_cases h : e.1 < x
    · rw [if_pos h]
      exact Nat.succ_le_succ (ih x)
    · rw [if_neg h]
      exact Nat.zero_le _

/-- Every node the scan passes has key below the target. -/
theorem scanLen_take_lt : ∀ (l : List (SNode V)) (x : Nat),
    ∀ e ∈ l.take (scanLen l x), e.1 < x := by
  intro l
  induction l with
  | nil => intro x e he; cases he
  | cons a rest ih =>
    intro x e he
    by_cases h : a.1 < x
    · rw [show scanLen (a :: rest) x = scanLen rest x + 1 by
        show (if a.1 < x then _ else _) = _
        rw [if_pos h]] at he
      rcases List.mem_cons.mp he with rfl | he2
      · exact h
      · exact ih x e he2
    · rw [show scanLen (a :: rest) x = 0 by
        show (if a.1 < x then _ else _) = _
        rw [if_neg h]] at he
      cases he

/-- In a sorted list, every node at or after the scan stop has key at
least the target. -/
theorem scanLen_drop_ge : ∀ (l : List (SNode V)) (x : Nat), SKeys l →
    ∀ e ∈ l.drop (scanLen l x), x ≤ e.1 := by
  intro l
  induction l with
  | nil => intro x _ e he; cases he
  | cons a rest ih =>
    intro x hpw e he
    obtain ⟨ha, hpw2⟩ := List.pairwise_cons.mp hpw
    by_cases h : a.1 < x
    · rw [show scanLen (a :: rest) x = scanLen rest x + 1 by
        show (if a.1 < x then _ else _) = _
        rw [if_pos h]] at he
      exact ih x hpw2 e he
    · rw [show scanLen (a :: rest) x = 0 by
        show (if a.1 < x then _ else _) = _
        rw [if_neg h]] at he
      rcases List.mem_cons.mp he with rfl | he2
      · exact Nat.le_of_not_lt h
      · exact Nat.le_trans (Nat.le_of_not_lt h) (Nat.le_of_lt (ha e he2))

/-- In a sorted list containing the target key, the scan stops exactly
on it. -/
theorem scanLen_found : ∀ (l : List (SNode V)) (x : Nat) (w : Option V),
    SKeys l → (x, w) ∈ l → l.get? (scanLen l x) = some (x, w) := by
  intro l
  induction l with
  | nil => intro x w _ hm; cases hm
  | cons a rest ih =>
    intro x w hpw hm
    obtain ⟨ha, hpw2⟩ := List.pairwise_cons.mp hpw
    by_cases h : a.1 < x
    · have hs : scanLen (a :: rest) x = scanLen rest x + 1 := by
        show (if a.1 < x then _ else _) = _
        rw [if_pos h]
      rw [hs]
      rcases List.mem_cons.mp hm with rfl | hm2
      · exact absurd h (by simp)
      · exact ih x w hpw2 hm2
    · have hs : scanLen (a :: rest) x = 0 := by
        show (if a.1 < x then _ else _) = _
        rw [if_neg h]
      rw [hs]
      rcases List.mem_cons.mp hm with rfl | hm2
      · rfl
      · exact absurd (ha (x, w) hm2) h

/-- Indexing into a dropped suffix. -/
theorem get?_drop2 : ∀ (l : List (SNode V)) (m n : Nat),
    (l.drop m).get? n = l.get? (m + n) := by
  intro l
  induction l with
  | nil => intro m n; cases m <;> rfl
  | cons a l ih =>
    intro m n
    cases m with
    | zero => rw [Nat.zero_add]; rfl
    | succ m =>
      have h1 : m + 1 + n = (m + n) + 1 := by omega
      rw [h1]
      show (l.drop m).get? n = l.get? (m + n)
      exact ih m n

/-- In a sorted list, every node before position `p` has key below the
key at `p`. -/
theorem take_lt_of_pairwise : ∀ (l : List (SNode V)) (p : Nat)
    (ep : SNode V), SKeys l → l.get? p = some ep →
    ∀ e ∈ l.take p, e.1 < ep.1 := by
  intro l
  induction l with
  | nil => intro p ep _ hget; cases p <;> cases hget
  | cons a rest ih =>
    intro p ep hpw hget e he
    obtain ⟨ha, hpw2⟩ := List.pairwise_cons.mp hpw
    cases p with
    | zero => cases he
    | succ p =>
      rcases List.mem_cons.mp he with rfl | he2
      · exact ha ep (List.get?_mem hget)
      · exact ih p ep hpw2 hget e he2

/-- `insertAt` in take/append/drop form. -/
theorem insertAt_eq : ∀ (l : List α) (q : Nat) (a : α),
    insertAt l q a = l.take q ++ a :: l.drop q := by
  intro l
  induction l with
  | nil => intro q a; cases q <;> rfl
  | cons c l ih =>
    intro q a
    cases q with
    | zero => rfl
    | succ q =>
      show c :: insertAt l q a = c :: (l.take q ++ a :: l.drop q)
      rw [ih q a]

/-- Membership after insertion. -/
theorem mem_insertAt : ∀ (l : List α) (q : Nat) (a b : α),
    b ∈ insertAt l q a ↔ b = a ∨ b ∈ l := by
  intro l
  induction l with
  | nil =>
    intro q a b
    cases q <;> simp [insertAt]
  | cons c l ih =>
    intro q a b
    cases q with
    | zero => simp [insertAt]
    | succ q =>
      show b ∈ c :: insertAt l q a ↔ _
      rw [List.mem_cons, ih q a b, List.mem_cons]
      tauto

/-- Inserting a node of a different key does not change a find. -/
theorem find?_insertAt_ne : ∀ (l : List (SNode V)) (q : Nat)
    (a : SNode V) (x : Nat), a.1 ≠ x →
    (insertAt l q a).find? (fun e => e.1 == x)
      = l.find? (fun e => e.1 == x) := by
  intro l
  induction l with
  | nil =>
    intro q a x hne
    have hb : (a.1 == x) = false := by simp [hne]
    cases q <;> simp [insertAt, List.find?, hb]
  | cons c l ih =>
    intro q a x hne
    cases q with
    | zero =>
      show List.find? _ (a :: c :: l) = _
      rw [List.find?]
      simp only [show (a.1 == x) = false by simp [hne]]
    | succ q =>
      show List.find? _ (c :: insertAt l q a) = List.find? _ (c :: l)
      rw [List.find?, List.find?]
      by_cases hc : c.1 = x
      · simp only [show (c.1 == x) = true by simp [hc]]
      · simp only [show (c.1 == x) = false by simp [hc]]
        exact ih q a x hne

/-- Reading back the inserted node. -/
theorem get?_insertAt_self : ∀ (l : List α) (q : Nat) (a : α),
    q ≤ l.length → (insertAt l q a).get? q = some a := by
  intro l
  induction l with
  | nil =>
    intro q a hq
    have : q = 0 := by
      simpa using hq
    subst this
    rfl
  | cons c l ih =>
    intro q a hq
    cases q with
    | zero => rfl
    | succ q =>
      show (insertAt l q a).get? q = some a
      exact ih q a (by simpa using hq)

/-- The value stored under a split-ordered key: what the first matching
node carries. -/
def userAssoc (l : List (SNode V)) (x : Nat) : Option V :=
  match l.find? (fun e => e.1 == x) with
  | some e => e.2
  | none => none

/-- Inserting a node of a different key preserves the association. -/
theorem userAssoc_insertAt_ne (l : List (SNode V)) (q : Nat) (a : SNode V)
    (x : Nat) (h : a.1 ≠ x) :
    userAssoc (insertAt l q a) x = userAssoc l x := by
  rw [userAssoc, userAssoc, find?_insertAt_ne l q a x h]

/-- In a sorted list the association returns the stored value. -/
theorem userAssoc_of_mem : ∀ (l : List (SNode V)) (x : Nat) (w : Option V),
    SKeys l → (x, w) ∈ l → userAssoc l x = w := by
  intro l
  induction l with
  | nil => intro x w _ hm; cases hm
  | cons a rest ih =>
    intro x w hpw hm
    obtain ⟨ha, hpw2⟩ := List.pairwise_cons.mp hpw
    by_cases hax : a.1 = x
    · rw [userAssoc, List.find?]
      simp only [show (a.1 == x) = true by simp [hax]]
      rcases List.mem_cons.mp hm with rfl | hm2
      · rfl
      · exact absurd (ha (x, w) hm2) (by rw [hax]; simp)
    · rw [userAssoc, List.find?]
      simp only [show (a.1 == x) = false by simp [hax]]
      rcases List.mem_cons.mp hm with rfl | hm2
      · exact absurd rfl hax
      · exact ih x w hpw2 hm2

/-- An association hit names a member of the list. -/
theorem mem_of_userAssoc : ∀ (l : List (SNode V)) (x : Nat) (v : V),
    userAssoc l x = some v → (x, some v) ∈ l := by
  intro l x v h
  rw [userAssoc] at h
  cases hf : l.find? (fun e => e.1 == x) with
  | none => rw [hf] at h; cases h
  | some e =>
    rw [hf] at h
    have hmem := List.mem_of_find?_eq_some hf
    have hkey := List.find?_some hf
    have hx : e.1 = x := by simpa using hkey
    have he : e = (x, some v) := by
      obtain ⟨e1, e2⟩ := e
      simp only at h hx
      rw [hx, h]
    rw [← he]
    exact hmem

/-- Keys absent from the list have no association. -/
theorem userAssoc_eq_none (l : List (SNode V)) (x : Nat)
    (h : ∀ w, (x, w) ∉ l) : userAssoc l x = none := by
  rw [userAssoc]
  have hf : l.find? (fun e => e.1 == x) = none := by
    rw [List.find?_eq_none]
    intro e he hx
    have hex : e.1 = x := by simpa using hx
    refine h e.2 ?_
    have : e = (x, e.2) := by
      obtain ⟨e1, e2⟩ := e
      simp only at hex ⊢
      rw [hex]
    rw [← this]
    exact he
  rw [hf]

/-- In a sorted list, the position stored in a bucket cell (the first
list index with the sentinel's key) reads back the sentinel node. -/
theorem get?_posOfKey : ∀ (l : List (SNode V)) (nk : Nat) (w : Option V),
    SKeys l → (nk, w) ∈ l → l.get? (posOfKey l nk) = some (nk, w) := by
  intro l
  induction l with
  | nil => intro nk w _ hm; cases hm
  | cons a rest ih =>
    intro nk w hpw hm
    obtain ⟨ha, hpw2⟩ := List.pairwise_cons.mp hpw
    rw [posOfKey, List.findIdx_cons]
    by_cases hak : a.1 = nk
    · simp only [show (a.1 == nk) = true by simp [hak], cond_true]
      rcases List.mem_cons.mp hm with rfl | hm2
      · rfl
      · exact absurd (ha (nk, w) hm2) (by rw [hak]; simp)
    · simp only [show (a.1 == nk) = false by simp [hak], cond_false]
      rcases List.mem_cons.mp hm with rfl | hm2
      · exact absurd rfl hak
      · exact ih nk w hpw2 hm2

/-- Well-formedness of a `SplitOrderedList` state: the size is a
nontrivial power of two not above `2 ^ 63`; the list is sorted by
split-order key; even keys (sentinels) carry no value; every directory
cell holds the bit-reversed key of its bucket index and points to a
sentinel present in the list; and every sentinel in the list is
registered in the directory. -/
def Wf (s : SOState V) : Prop :=
  (∃ e, 1 ≤ e ∧ e ≤ 63 ∧ s.size = 2 ^ e) ∧
  SKeys s.list ∧
  (∀ p ∈ s.list, p.1 % 2 = 0 → p.2 = none) ∧
  (∀ bp ∈ s.buckets, bp.1 < 2 ^ 63 ∧ bp.2 = revBits64 bp.1 ∧
    (bp.2, (none : Option V)) ∈ s.list) ∧
  (∀ p ∈ s.list, p.2 = none → ∃ bp ∈ s.buckets, bp.2 = p.1)

/-- A loaded bucket cell names a directory entry. -/
theorem bucketGet_some (bs : List (Nat × Nat)) (b nk : Nat)
    (h : bucketGet bs b = some nk) : ∃ bp ∈ bs, bp.1 = b ∧ bp.2 = nk := by
  rw [bucketGet] at h
  cases hf : bs.find? (fun e => e.1 == b) with
  | none => rw [hf] at h; cases h
  | some bp =>
    rw [hf] at h
    refine ⟨bp, List.mem_of_find?_eq_some hf, ?_, ?_⟩
    · have := List.find?_some hf
      simpa using this
    · simpa using h

/-- A registered index is never read as null. -/
theorem bucketGet_ne_none (bs : List (Nat × Nat)) (b : Nat)
    (h : ∃ bp ∈ bs, bp.1 = b) : bucketGet bs b ≠ none := by
  obtain ⟨bp, hmem, hb⟩ := h
  intro hc
  rw [bucketGet] at hc
  cases hf : bs.find? (fun e => e.1 == b) with
  | some bp2 => rw [hf] at hc; cases hc
  | none =>
    have := List.find?_eq_none.mp hf bp hmem
    simp [hb] at this

/-- Storing another index does not change a cell. -/
theorem bucketGet_cons_ne (bs : List (Nat × Nat)) (b nk b2 : Nat)
    (h : b2 ≠ b) : bucketGet ((b, nk) :: bs) b2 = bucketGet bs b2 := by
  rw [bucketGet, bucketGet, List.find?]
  simp only [show (b == b2) = false by simp; omega]

/-- A positive find reads a node with the target key. -/
theorem foundAt_spec (l : List (SNode V)) (p x : Nat)
    (h : foundAt l p x = true) :
    ∃ e, l.get? (findHMPos l p x) = some e ∧ e.1 = x := by
  rw [foundAt] at h
  cases hg : l.get? (findHMPos l p x) with
  | none => rw [hg] at h; cases h
  | some e =>
    rw [hg] at h
    exact ⟨e, rfl, by simpa using h⟩

/-- Sorted insertion: if everything before the slot is below the new
key and everything from the slot on is above it, sortedness is kept. -/
theorem skeys_insertAt (l : List (SNode V)) (q : Nat) (a : SNode V)
    (hpw : SKeys l)
    (htake : ∀ e ∈ l.take q, e.1 < a.1)
    (hdrop : ∀ e ∈ l.drop q, a.1 < e.1) :
    SKeys (insertAt l q a) := by
  rw [insertAt_eq]
  have hpw2 : List.Pairwise (fun a b : SNode V => a.1 < b.1)
      (l.take q ++ l.drop q) := by
    rw [List.take_append_drop]
    exact hpw
  obtain ⟨hp1, hp2, hcross⟩ := List.pairwise_append.mp hpw2
  apply List.pairwise_append.mpr
  refine ⟨hp1, List.pairwise_cons.mpr ⟨hdrop, hp2⟩, ?_⟩
  intro e1 he1 e2 he2
  rcases List.mem_cons.mp he2 with rfl | he22
  · exact htake e1 he1
  · exact hcross e1 he1 e2 he22

/-- Master specification of `lookup_bucket`: from a well-formed state
and a bucket index below the size it preserves well-formedness, the
counters, the association of every user (odd) key, and the directory
cells of all larger bucket indices, and the returned cursor sits on the
sentinel node of the bucket. -/
theorem lookupBucketF_spec : ∀ (fuel : Nat) (s : SOState V) (b : Nat),
    Wf s → b < s.size → b + 1 ≤ fuel →
    Wf (lookupBucketF fuel s b).1 ∧
    (lookupBucketF fuel s b).1.size = s.size ∧
    (lookupBucketF fuel s b).1.count = s.count ∧
    (∀ x, x % 2 = 1 →
      userAssoc (lookupBucketF fuel s b).1.list x = userAssoc s.list x) ∧
    (∀ b2, b < b2 →
      bucketGet (lookupBucketF fuel s b).1.buckets b2
        = bucketGet s.buckets b2) ∧
    (lookupBucketF fuel s b).1.list.get? (lookupBucketF fuel s b).2
      = some (revBits64 b, (none : Option V)) := by
  intro fuel
  induction fuel with
  | zero => intro s b _ _ hf; omega
  | succ fuel ih =>
    intro s b hwf hbs hf
    obtain ⟨⟨e, he1, he2, hsz⟩, hpw, hpar, hbuck, hreg⟩ := hwf
    have hwf2 : Wf s := ⟨⟨e, he1, he2, hsz⟩, hpw, hpar, hbuck, hreg⟩
    have hb63 : b < 2 ^ 63 := by
      have h1 : b < 2 ^ e := by rw [← hsz]; exact hbs
      have h2 : (2 : Nat) ^ e ≤ 2 ^ 63 := Nat.pow_le_pow_right (by norm_num) he2
      omega
    cases hbg : bucketGet s.buckets b with
    | some nk =>
      have hstep : lookupBucketF (fuel + 1) s b = (s, posOfKey s.list nk) := by
        simp only [lookupBucketF, hbg]
      rw [hstep]
      obtain ⟨bp, hbpmem, hbp1, hbp2⟩ := bucketGet_some s.buckets b nk hbg
      obtain ⟨_, hbrev, hbsent⟩ := hbuck bp hbpmem
      have hnk : nk = revBits64 b := by rw [← hbp2, hbrev, hbp1]
      refine ⟨hwf2, rfl, rfl, fun x _ => rfl, fun b2 _ => rfl, ?_⟩
      rw [hbp2] at hbsent
      have hget := get?_posOfKey s.list nk none hpw hbsent
      show s.list.get? (posOfKey s.list nk) = some (revBits64 b, none)
      rw [← hnk]
      exact hget
    | none =>
      by_cases hb0 : b = 0
      · subst hb0
        have h0 : revBits64 0 = 0 := revAux_zero 64
        have hstep : lookupBucketF (fuel + 1) s 0 =
            ({ s with list := insertAt s.list 0 (revBits64 0, none),
                      buckets := bucketStore s.buckets 0 (revBits64 0) }, 0) := by
          simp only [lookupBucketF, hbg]
          rw [if_pos trivial]
        have hins : insertAt s.list 0 ((revBits64 0 : Nat), (none : Option V))
            = (revBits64 0, none) :: s.list := by
          cases s.list <;> rfl
        rw [hstep]
        simp only [hins]
        have h0mem : ∀ w : Option V, (0, w) ∉ s.list := by
          intro w hw
          have hwnone : w = none := hpar (0, w) hw rfl
          subst hwnone
          obtain ⟨bp, hbpmem, hbp2⟩ := hreg (0, none) hw rfl
          obtain ⟨hbp63, hbrev, _⟩ := hbuck bp hbpmem
          have hrev : revBits64 bp.1 = 0 := by rw [← hbrev]; exact hbp2
          have hbp0 : bp.1 = 0 := by
            apply revAux_inj 64 bp.1 0 (lt_trans hbp63 (by norm_num))
              (Nat.pos_pow_of_pos 64 (by norm_num))
            rw [revAux_zero 64]
            exact hrev
          exact bucketGet_ne_none s.buckets 0 ⟨bp, hbpmem, hbp0⟩ hbg
        have hkey0 : ∀ e2 ∈ s.list, (0 : Nat) < e2.1 := by
          intro e2 he2
          rcases Nat.eq_zero_or_pos e2.1 with hz | hp
          · exfalso
            refine h0mem e2.2 ?_
            have : e2 = (0, e2.2) := by
              obtain ⟨a1, a2⟩ := e2
              simp only at hz ⊢
              rw [hz]
            rw [← this]
            exact he2
          · exact hp
        refine ⟨⟨⟨e, he1, he2, hsz⟩, ?_, ?_, ?_, ?_⟩, by trivial, by trivial,
          ?_, ?_, by trivial⟩
        · show SKeys ((revBits64 0, (none : Option V)) :: s.list)
          apply List.pairwise_cons.mpr
          refine ⟨?_, hpw⟩
          intro e2 he2
          rw [h0]
          exact hkey0 e2 he2
        · intro p hp hpe
          rcases List.mem_cons.mp hp with rfl | hp2
          · rfl
          · exact hpar p hp2 hpe
        · intro bp hbp
          rcases List.mem_cons.mp hbp with rfl | hbp2
          · exact ⟨by norm_num, by rw [h0], List.mem_cons_self _ _⟩
          · obtain ⟨x1, x2, x3⟩ := hbuck bp hbp2
            exact ⟨x1, x2, List.mem_cons_of_mem _ x3⟩
        · intro p hp hpe
          rcases List.mem_cons.mp hp with rfl | hp2
          · exact ⟨(0, revBits64 0), List.mem_cons_self _ _, rfl⟩
          · obtain ⟨bp, hbpm, hbp2⟩ := hreg p hp2 hpe
            exact ⟨bp, List.mem_cons_of_mem _ hbpm, hbp2⟩
        · intro x hx
          rw [← hins]
          refine userAssoc_insertAt_ne s.list 0 (revBits64 0, none) x ?_
          show revBits64 0 ≠ x
          rw [h0]
          omega
        · intro b2 hb2
          exact bucketGet_cons_ne s.buckets 0 (revBits64 0) b2 (by omega)
      · have hb1 : 0 < b := Nat.pos_of_ne_zero hb0
        have hbe : b < 2 ^ e := by rw [← hsz]; exact hbs
        have hpar2 : halveUntilLe s.size b = 2 ^ Nat.log 2 b := by
          rw [hsz]
          exact halveUntilLe_pow2 e b hb1 hbe
        have hlog1 : 2 ^ Nat.log 2 b ≤ b := Nat.pow_log_le_self 2 (by omega)
        have hlog2 : b < 2 ^ (Nat.log 2 b + 1) :=
          Nat.lt_pow_succ_log_self (by norm_num) b
        have hpows : (2 : Nat) ^ (Nat.log 2 b + 1) = 2 ^ Nat.log 2 b * 2 :=
          pow_succ 2 _
        have hpidx : b - halveUntilLe s.size b = b % 2 ^ Nat.log 2 b := by
          rw [hpar2]
          have h1 : b % 2 ^ Nat.log 2 b
              = (b - 2 ^ Nat.log 2 b) % 2 ^ Nat.log 2 b :=
            Nat.mod_eq_sub_mod hlog1
          rw [h1, Nat.mod_eq_of_lt (by omega)]
        have hplt : b - halveUntilLe s.size b < b := by
          rw [hpar2]
          have := Nat.pos_pow_of_pos (Nat.log 2 b) (show 0 < 2 by norm_num)
          omega
        have hbit : b / 2 ^ Nat.log 2 b % 2 = 1 := by
          have hdiv1 : b / 2 ^ Nat.log 2 b = 1 := by
            apply Nat.div_eq_of_lt_le
            · rw [Nat.one_mul]
              exact hlog1
            · rw [show (1 + 1) * 2 ^ Nat.log 2 b = 2 ^ Nat.log 2 b * 2 by ring]
              omega
          rw [hdiv1]
        have hsklt : revBits64 (b - halveUntilLe s.size b) < revBits64 b := by
          rw [hpidx]
          apply revAux_mod_lt 64 (Nat.log 2 b) b ?_ hbit
          have hlt63 : Nat.log 2 b < 63 := by
            by_contra hc
            have : (2 : Nat) ^ 63 ≤ 2 ^ Nat.log 2 b :=
              Nat.pow_le_pow_right (by norm_num) (by omega)
            omega
          omega
        obtain ⟨ihwf, ihsz, ihcnt, ihassoc, ihbg, ihget⟩ :=
          ih s (b - halveUntilLe s.size b) hwf2 (by omega) (by omega)
        obtain ⟨ihpow, ihpw, ihpar, ihbuck, ihreg⟩ := ihwf
        have ihwf2 : Wf (lookupBucketF fuel s (b - halveUntilLe s.size b)).1 :=
          ⟨ihpow, ihpw, ihpar, ihbuck, ihreg⟩
        have hskeven : revBits64 b % 2 = 0 := revBits64_even b hb63
        have hbg2 : bucketGet
            (lookupBucketF fuel s (b - halveUntilLe s.size b)).1.buckets b
            = none := by
          rw [ihbg b hplt]
          exact hbg
        have hsknot : ∀ w : Option V, (revBits64 b, w) ∉
            (lookupBucketF fuel s (b - halveUntilLe s.size b)).1.list := by
          intro w hw
          have hwnone : w = none := ihpar _ hw hskeven
          subst hwnone
          obtain ⟨bp, hbpmem, hbp2⟩ := ihreg _ hw rfl
          obtain ⟨hbp63, hbrev, _⟩ := ihbuck bp hbpmem
          have hrev : revBits64 bp.1 = revBits64 b := by
            rw [← hbrev]
            exact hbp2
          have hbpb : bp.1 = b :=
            revAux_inj 64 bp.1 b (lt_trans hbp63 (by norm_num))
              (lt_trans hb63 (by norm_num)) hrev
          exact bucketGet_ne_none _ b ⟨bp, hbpmem, hbpb⟩ hbg2
        have hp2lt : (lookupBucketF fuel s (b - halveUntilLe s.size b)).2 <
            (lookupBucketF fuel s (b - halveUntilLe s.size b)).1.list.length := by
          by_contra hc
          rw [List.get?_eq_none.mpr (by omega)] at ihget
          cases ihget
        have hprefix : ∀ e2 ∈ (lookupBucketF fuel s
              (b - halveUntilLe s.size b)).1.list.take
              (lookupBucketF fuel s (b - halveUntilLe s.size b)).2,
            e2.1 < revBits64 b := by
          intro e2 he2
          have := take_lt_of_pairwise _ _ _ ihpw ihget e2 he2
          exact lt_trans this hsklt
        have hstep : lookupBucketF (fuel + 1) s b =
            (if foundAt (lookupBucketF fuel s (b - halveUntilLe s.size b)).1.list
                (lookupBucketF fuel s (b - halveUntilLe s.size b)).2
                (revBits64 b) then
              ((lookupBucketF fuel s (b - halveUntilLe s.size b)).1,
               findHMPos (lookupBucketF fuel s (b - halveUntilLe s.size b)).1.list
                 (lookupBucketF fuel s (b - halveUntilLe s.size b)).2
                 (revBits64 b))
             else
              ({ (lookupBucketF fuel s (b - halveUntilLe s.size b)).1 with
                  list := insertAt
                    (lookupBucketF fuel s (b - halveUntilLe s.size b)).1.list
                    (findHMPos
                      (lookupBucketF fuel s (b - halveUntilLe s.size b)).1.list
                      (lookupBucketF fuel s (b - halveUntilLe s.size b)).2
                      (revBits64 b))
                    (revBits64 b, none),
                  buckets := bucketStore
                    (lookupBucketF fuel s (b - halveUntilLe s.size b)).1.buckets
                    b (revBits64 b) },
               findHMPos (lookupBucketF fuel s (b - halveUntilLe s.size b)).1.list
                 (lookupBucketF fuel s (b - halveUntilLe s.size b)).2
                 (revBits64 b))) := by
          simp only [lookupBucketF, hbg]
          rw [if_neg hb0]
        rw [hstep]
        by_cases hfound : foundAt
            (lookupBucketF fuel s (b - halveUntilLe s.size b)).1.list
            (lookupBucketF fuel s (b - halveUntilLe s.size b)).2
            (revBits64 b) = true
        · rw [if_pos hfound]
          refine ⟨ihwf2, ihsz, ihcnt, ihassoc,
            fun b2 hb2 => ihbg b2 (by omega), ?_⟩
          obtain ⟨ev, hgete, hkey⟩ := foundAt_spec _ _ _ hfound
          have hmem := List.get?_mem hgete
          have hval : ev.2 = none := ihpar ev hmem (by rw [hkey]; exact hskeven)
          have hev : ev = (revBits64 b, none) := by
            obtain ⟨a1, a2⟩ := ev
            simp only at hkey hval
            rw [hkey, hval]
          rw [← hev]
          exact hgete
        · rw [if_neg hfound]
          have hdpw : SKeys ((lookupBucketF fuel s
              (b - halveUntilLe s.size b)).1.list.drop
              (lookupBucketF fuel s (b - halveUntilLe s.size b)).2) :=
            ihpw.sublist (List.drop_sublist _ _)
          have htakeq : ∀ e2 ∈ (lookupBucketF fuel s
                (b - halveUntilLe s.size b)).1.list.take
                (findHMPos (lookupBucketF fuel s
                  (b - halveUntilLe s.size b)).1.list
                  (lookupBucketF fuel s (b - halveUntilLe s.size b)).2
                  (revBits64 b)),
              e2.1 < revBits64 b := by
            intro e2 he2
            rw [findHMPos, List.take_add] at he2
            rcases List.mem_append.mp he2 with h1 | h1
            · exact hprefix e2 h1
            · exact scanLen_take_lt _ (revBits64 b) e2 h1
          have hdd : ((lookupBucketF fuel s
              (b - halveUntilLe s.size b)).1.list.drop
              (lookupBucketF fuel s (b - halveUntilLe s.size b)).2).drop
              (scanLen ((lookupBucketF fuel s
                (b - halveUntilLe s.size b)).1.list.drop
                (lookupBucketF fuel s (b - halveUntilLe s.size b)).2)
                (revBits64 b))
              = (lookupBucketF fuel s (b - halveUntilLe s.size b)).1.list.drop
              (findHMPos (lookupBucketF fuel s
                (b - halveUntilLe s.size b)).1.list
                (lookupBucketF fuel s (b - halveUntilLe s.size b)).2
                (revBits64 b)) := by
            rw [List.drop_drop, findHMPos]
          have hdropq : ∀ e2 ∈ (lookupBucketF fuel s
                (b - halveUntilLe s.size b)).1.list.drop
                (findHMPos (lookupBucketF fuel s
                  (b - halveUntilLe s.size b)).1.list
                  (lookupBucketF fuel s (b - halveUntilLe s.size b)).2
                  (revBits64 b)),
              revBits64 b < e2.1 := by
            intro e2 he2
            rw [← hdd] at he2
            have hge := scanLen_drop_ge _ (revBits64 b) hdpw e2 he2
            rcases Nat.lt_or_ge (revBits64 b) e2.1 with hlt | hle
            · exact hlt
            · exfalso
              have hkeyeq : e2.1 = revBits64 b := by omega
              refine hsknot e2.2 ?_
              have heta : e2 = (revBits64 b, e2.2) := by
                obtain ⟨a1, a2⟩ := e2
                simp only at hkeyeq ⊢
                rw [hkeyeq]
              rw [← heta]
              exact List.mem_of_mem_drop (List.mem_of_mem_drop he2)
          have hqlen : findHMPos (lookupBucketF fuel s
                (b - halveUntilLe s.size b)).1.list
                (lookupBucketF fuel s (b - halveUntilLe s.size b)).2
                (revBits64 b)
              ≤ (lookupBucketF fuel s (b - halveUntilLe s.size b)).1.list.length := by
            rw [findHMPos]
            have h1 := scanLen_le_length ((lookupBucketF fuel s
              (b - halveUntilLe s.size b)).1.list.drop
              (lookupBucketF fuel s (b - halveUntilLe s.size b)).2) (revBits64 b)
            rw [List.length_drop] at h1
            omega
          refine ⟨⟨⟨e, he1, he2, by
              show (lookupBucketF fuel s (b - halveUntilLe s.size b)).1.size = _
              rw [ihsz, hsz]⟩, ?_, ?_, ?_, ?_⟩,
            by show (lookupBucketF fuel s (b - halveUntilLe s.size b)).1.size = _
               rw [ihsz],
            by show (lookupBucketF fuel s (b - halveUntilLe s.size b)).1.count = _
               rw [ihcnt],
            ?_, ?_, ?_⟩
          · exact skeys_insertAt _ _ _ ihpw htakeq hdropq
          · intro p hp hpe
            rcases (mem_insertAt _ _ _ _).mp hp with rfl | hp2
            · rfl
            · exact ihpar p hp2 hpe
          · intro bp hbp
            rcases List.mem_cons.mp hbp with rfl | hbp2
            · exact ⟨hb63, rfl, (mem_insertAt _ _ _ _).mpr (Or.inl rfl)⟩
            · obtain ⟨x1, x2, x3⟩ := ihbuck bp hbp2
              exact ⟨x1, x2, (mem_insertAt _ _ _ _).mpr (Or.inr x3)⟩
          · intro p hp hpe
            rcases (mem_insertAt _ _ _ _).mp hp with rfl | hp2
            · exact ⟨(b, revBits64 b), List.mem_cons_self _ _, rfl⟩
            · obtain ⟨bp, hbpm, hbp2⟩ := ihreg p hp2 hpe
              exact ⟨bp, List.mem_cons_of_mem _ hbpm, hbp2⟩
          · intro x hx
            have hne : revBits64 b ≠ x := by omega
            show userAssoc (insertAt _ _ (revBits64 b, none)) x = _
            rw [userAssoc_insertAt_ne _ _ _ x hne]
            exact ihassoc x hx
          · intro b2 hb2
            show bucketGet ((b, revBits64 b) ::
              (lookupBucketF fuel s (b - halveUntilLe s.size b)).1.buckets) b2 = _
            rw [bucketGet_cons_ne _ _ _ _ (by omega)]
            exact ihbg b2 (by omega)
          · exact get?_insertAt_self _ _ _ hqlen

/-- If every node before the scanning start lies below the target key,
the scan started there finds any node carrying the target key. -/
theorem found_from_below (l : List (SNode V)) (p x : Nat) (w : Option V)
    (hpw : SKeys l) (htake : ∀ e ∈ l.take p, e.1 < x)
    (hm : (x, w) ∈ l) :
    foundAt l p x = true ∧ l.get? (findHMPos l p x) = some (x, w) := by
  have hmd : (x, w) ∈ l.drop p := by
    have hsplit := List.take_append_drop p l
    have hm2 : (x, w) ∈ l.take p ++ l.drop p := by
      rw [hsplit]
      exact hm
    rcases List.mem_append.mp hm2 with h1 | h1
    · exact absurd (htake _ h1) (by simp)
    · exact h1
  have hdw : SKeys (l.drop p) := hpw.sublist (List.drop_sublist _ _)
  have hs := scanLen_found (l.drop p) x w hdw hmd
  have hget : l.get? (findHMPos l p x) = some (x, w) := by
    rw [findHMPos, ← get?_drop2]
    exact hs
  refine ⟨?_, hget⟩
  rw [foundAt, hget]
  simp

/-- Specification of `find`: it preserves well-formedness, the
counters and every user-key association; the found flag is set whenever
the split-ordered key of `k` has an association; and a positive flag
puts the cursor on a node carrying that key and its association. -/
theorem findSO_spec (s : SOState V) (k : Nat) (hwf : Wf s)
    (hk : k < 2 ^ 63) :
    Wf (findSO s k).1 ∧
    (findSO s k).1.size = s.size ∧
    (findSO s k).1.count = s.count ∧
    (∀ x, x % 2 = 1 →
      userAssoc (findSO s k).1.list x = userAssoc s.list x) ∧
    (∀ w : V, userAssoc s.list (revBits64 k ||| 1) = some w →
      (findSO s k).2.1 = true) ∧
    ((findSO s k).2.1 = true →
      ∃ w : Option V,
        (findSO s k).1.list.get? (findSO s k).2.2
          = some (revBits64 k ||| 1, w) ∧
        userAssoc s.list (revBits64 k ||| 1) = w) := by
  have hpos : 0 < s.size := by
    obtain ⟨e, _, _, hsz⟩ := hwf.1
    rw [hsz]
    exact Nat.pos_pow_of_pos e (by norm_num)
  have hbs : k % s.size < s.size := Nat.mod_lt _ hpos
  obtain ⟨rwf, rsz, rcnt, rassoc, _, rget⟩ :=
    lookupBucketF_spec (k % s.size + 1) s (k % s.size) hwf hbs (Nat.le_refl _)
  have hbkey : revBits64 (k % s.size) ≤ revBits64 k := by
    obtain ⟨e, _, _, hsz⟩ := hwf.1
    rw [hsz]
    exact revAux_mod_le 64 e k
  have heven : revBits64 k % 2 = 0 := revBits64_even k hk
  have hsplodd : (revBits64 k ||| 1) % 2 = 1 := by
    rw [lor_one_even _ heven]
    omega
  have hpw2 : SKeys (lookupBucketF (k % s.size + 1) s (k % s.size)).1.list :=
    rwf.2.1
  have htake : ∀ e2 ∈ (lookupBucketF (k % s.size + 1) s
        (k % s.size)).1.list.take
        (lookupBucketF (k % s.size + 1) s (k % s.size)).2,
      e2.1 < revBits64 k ||| 1 := by
    intro e2 he2
    have h1 := take_lt_of_pairwise _ _ _ hpw2 rget e2 he2
    refine lt_trans (lt_of_lt_of_le h1 hbkey) ?_
    rw [lor_one_even _ heven]
    exact Nat.lt_succ_self _
  refine ⟨rwf, rsz, rcnt, rassoc, ?_, ?_⟩
  · intro w hw
    have hw2 : userAssoc (lookupBucketF (k % s.size + 1) s
        (k % s.size)).1.list (revBits64 k ||| 1) = some w := by
      rw [rassoc _ hsplodd]
      exact hw
    have hmem := mem_of_userAssoc _ _ w hw2
    exact (found_from_below _ _ _ (some w) hpw2 htake hmem).1
  · intro hfound
    obtain ⟨ev, hgete, hkey⟩ := foundAt_spec _ _ _ hfound
    have hmem := List.get?_mem hgete
    have heta : ev = (revBits64 k ||| 1, ev.2) := by
      obtain ⟨a1, a2⟩ := ev
      simp only at hkey ⊢
      rw [hkey]
    have hassoc : userAssoc (lookupBucketF (k % s.size + 1) s
        (k % s.size)).1.list (revBits64 k ||| 1) = ev.2 :=
      userAssoc_of_mem _ _ _ hpw2 (heta ▸ hmem)
    refine ⟨ev.2, ?_, ?_⟩
    · show (lookupBucketF (k % s.size + 1) s (k % s.size)).1.list.get?
        (findHMPos (lookupBucketF (k % s.size + 1) s (k % s.size)).1.list
          (lookupBucketF (k % s.size + 1) s (k % s.size)).2
          (revBits64 k ||| 1)) = _
      rw [← heta]
      exact hgete
    · rw [← rassoc _ hsplodd]
      exact hassoc

/-- Specification of `lookup`: it returns the association of the
split-ordered key of `k` and preserves well-formedness, the counters
and every user-key association. -/
theorem lookupSO_spec (s : SOState V) (k : Nat) (hwf : Wf s)
    (hk : k < 2 ^ 63) :
    (lookupSO s k).1 = userAssoc s.list (revBits64 k ||| 1) ∧
    Wf (lookupSO s k).2 ∧
    (lookupSO s k).2.size = s.size ∧
    (lookupSO s k).2.count = s.count ∧
    (∀ x, x % 2 = 1 →
      userAssoc (lookupSO s k).2.list x = userAssoc s.list x) := by
  obtain ⟨fwf, fsz, fcnt, fassoc, ffound1, ffound2⟩ := findSO_spec s k hwf hk
  refine ⟨?_, fwf, fsz, fcnt, fassoc⟩
  show (if (findSO s k).2.1 = true then
      valueAt (findSO s k).1.list (findSO s k).2.2 else none)
    = userAssoc s.list (revBits64 k ||| 1)
  by_cases hf : (findSO s k).2.1 = true
  · rw [if_pos hf]
    obtain ⟨w, hget, hassoc⟩ := ffound2 hf
    rw [hassoc, valueAt, hget]
    rfl
  · rw [if_neg hf]
    cases h2 : userAssoc s.list (revBits64 k ||| 1) with
    | none => rfl
    | some w => exact absurd (ffound1 w h2) hf

/-- Successful-result test for an insert outcome. -/
def okB : Except V Unit → Bool
  | .ok _ => true
  | .error _ => false

/-- Folds a sequence of inserts with mirrored values over a state,
recording whether every insert succeeded. -/
def insertRun (s : SOState Nat) (ks : List Nat) : SOState Nat × Bool :=
  ks.foldl (fun acc k =>
    let r := insertSO acc.1 k k
    (r.2, acc.2 && okB r.1)) (s, true)

end SO

namespace GA

/-- Number of slots of a segment: `1 << SEGMENT_LOGSIZE` with
`SEGMENT_LOGSIZE = 10` (growable_array.rs line 136). -/
def SEGSIZE : Nat := 1024

/-- Sequential heap state of a `GrowableArray`: segment contents
(segment id, then slot, to stored machine word; 0 is the null word),
the id for the next allocation (valid ids start at 1 so that 0 can act
as the null pointer), and the tagged root cell. -/
structure GAState where
  segs : Nat → Nat → Nat
  nextId : Nat
  root : Nat
  rootTag : Nat

/-- Fresh `GrowableArray`: null root with tag 0. -/
def initGA : GAState :=
  { segs := fun _ _ => 0, nextId := 1, root := 0, rootTag := 0 }

/-- Allocation of a zeroed segment (`Segment::new`). -/
def allocSeg (s : GAState) : GAState × Nat :=
  ({ s with nextId := s.nextId + 1,
            segs := fun j => if j = s.nextId then fun _ => 0 else s.segs j },
   s.nextId)

/-- A store into one slot of one segment. -/
def writeSlot (s : GAState) (id slot w : Nat) : GAState :=
  { s with segs := fun j =>
      if j = id then fun sl => if sl = slot then w else s.segs j sl
      else s.segs j }

/-- Fuel-indexed digit decomposition from `GrowableArray::get`
(growable_array.rs lines 239-246): base-1024 digits of the index, most
significant first; index 0 is the single digit 0.  The fuel only makes
the `while index != 0` loop structural; `digitsOf` supplies enough. -/
def digitsAux : Nat → Nat → List Nat
  | 0, _ => []
  | _ + 1, 0 => []
  | fuel + 1, i => digitsAux fuel (i / SEGSIZE) ++ [i % SEGSIZE]

/-- Digit decomposition of an index. -/
def digitsOf (i : Nat) : List Nat :=
  if i = 0 then [0] else digitsAux (i + 1) i

/-- The height-raising chain loop of `GrowableArray::get`
(growable_array.rs lines 256-264): starting from segment `top`,
allocate `m` fresh segments, each stored into slot 0 of the previous
one; returns the last segment of the chain. -/
def buildChain : GAState → Nat → Nat → GAState × Nat
  | s, top, 0 => (s, top)
  | s, top, m + 1 =>
    let r := allocSeg s
    buildChain (writeSlot r.1 top 0 r.2) r.2 m

/-- The grow branch of `GrowableArray::get`
(growable_array.rs lines 252-287) for digit list `v`, executed when the
root tag is below `v.length`.  A fresh topmost segment is allocated;
only when the old height is nonzero is a chain of
`v.length - rootTag - 1` further segments built under it, with the old
root hooked into slot 0 of the lowest one; then the root cell is set to
the new topmost segment with tag `v.length` (the CAS of the sequential
run always succeeds). -/
def grow (s : GAState) (v : List Nat) : GAState :=
  let r := allocSeg s
  let s2 :=
    if s.rootTag ≠ 0 then
      let c := buildChain r.1 r.2 (v.length - s.rootTag - 1)
      writeSlot c.1 c.2 0 s.root
    else r.1
  { s2 with root := r.2, rootTag := v.length }

/-- Fuel-indexed descent loop of `GrowableArray::get`
(growable_array.rs lines 293-307): walk down while the next slot on the
path is non-null, stopping above the leaf level.  Returns the segment
reached and the level index at which the walk stopped. -/
def descendLoop : Nat → GAState → Nat → List Nat → Nat → Nat × Nat
  | 0, _, ptr, _, l => (ptr, l)
  | fuel + 1, s, ptr, v, l =>
    if l ≥ v.length - 1 then (ptr, l)
    else
      let w := s.segs ptr (v.getD l 0)
      if w = 0 then (ptr, l) else descendLoop fuel s w v (l + 1)

/-- The fill chain of `GrowableArray::get`
(growable_array.rs lines 310-318): allocate the top of the missing
chain, then one segment per listed slot, each stored into the previous
segment at that slot; returns the top and bottom of the chain. -/
def buildChainIdx : GAState → Nat → List Nat → GAState × Nat
  | s, top, [] => (s, top)
  | s, top, sl :: rest =>
    let r := allocSeg s
    buildChainIdx (writeSlot r.1 top sl r.2) r.2 rest

/-- Embedding of `GrowableArray::get` (growable_array.rs lines 237-335),
sequential run: returns the updated state and the address (segment id,
slot) of the atomic cell for index `i`.  In a sequential run both CAS
operations succeed, so the retry loop executes the grow branch at most
once, then descends and fills the missing chain. -/
def getCell (s : GAState) (i : Nat) : GAState × Nat × Nat :=
  let v0 := digitsOf i
  let s1 := if s.rootTag < v0.length then grow s v0 else s
  let v := List.replicate (s1.rootTag - v0.length) 0 ++ v0
  let d := descendLoop v.length s1 s1.root v 0
  let remaining := v.length - d.2 - 1
  if remaining = 0 then (s1, d.1, v.getD (v.length - 1) 0)
  else
    let r := allocSeg s1
    let c := buildChainIdx r.1 r.2 ((v.drop (d.2 + 1)).take (remaining - 1))
    let s3 := writeSlot c.1 d.1 (v.getD d.2 0) r.2
    (s3, c.2, v.getD (v.length - 1) 0)

/-- A client store through the returned cell reference
(`Atomic::store` on the cell, as in the example runs). -/
def storeCell (s : GAState) (c : Nat × Nat) (w : Nat) : GAState :=
  writeSlot s c.1 c.2 w

/-- A client load through the returned cell reference. -/
def readCell (s : GAState) (c : Nat × Nat) : Nat := s.segs c.1 c.2

/-- Height of the segment tree reachable from segment `id`, following
non-null slots, with fuel bounding the depth (the root tag is always
enough fuel in the states considered). -/
def segHeightF (s : GAState) : Nat → Nat → Nat
  | 0, _ => 0
  | fuel + 1, id =>
    1 + (List.range SEGSIZE).foldl
      (fun acc j =>
        max acc (if s.segs id j ≠ 0 then segHeightF s fuel (s.segs id j) else 0))
      0

/-- Height of the segment tree reachable from the root cell. -/
def reachHeight (s : GAState) : Nat :=
  if s.root = 0 then 0 else segHeightF s s.rootTag s.root

/-- Repeated reads of slot 0, following the height-raising chain. -/
def slot0Iter (s : GAState) : Nat → Nat → Nat
  | 0, id => id
  | m + 1, id => slot0Iter s m (s.segs id 0)

/-- Pointwise description of a read after `allocSeg`. -/
theorem allocSeg_segs (s : GAState) (j sl : Nat) :
    (allocSeg s).1.segs j sl = if j = s.nextId then 0 else s.segs j sl := by
  by_cases hj : j = s.nextId <;> simp [allocSeg, hj]

/-- Pointwise description of a read after `writeSlot`. -/
theorem writeSlot_segs (s : GAState) (id slot w j sl : Nat) :
    (writeSlot s id slot w).segs j sl =
      if j = id ∧ sl = slot then w else s.segs j sl := by
  by_cases hj : j = id <;> by_cases hsl : sl = slot <;> simp [writeSlot, hj, hsl]

/-- Peeling an iterated slot-0 read from the back. -/
theorem slot0Iter_succ_back (s : GAState) :
    ∀ m id, slot0Iter s (m + 1) id = s.segs (slot0Iter s m id) 0 := by
  intro m
  induction m with
  | zero => intro id; rfl
  | succ m ih =>
    intro id
    show slot0Iter s (m + 1) (s.segs id 0) = s.segs (slot0Iter s (m + 1) id) 0
    rw [ih (s.segs id 0)]
    rfl

/-- Complete description of the state built by the height-raising chain
loop: it allocates `m` fresh segments `nextId, ..., nextId + m - 1`,
links `top` and each fresh segment to the next one through slot 0,
returns the last chain element, and touches nothing else. -/
theorem buildChain_spec :
    ∀ m s top, top < s.nextId →
      (buildChain s top m).1.nextId = s.nextId + m ∧
      (buildChain s top m).2 = (if m = 0 then top else s.nextId + m - 1) ∧
      (buildChain s top m).1.root = s.root ∧
      (buildChain s top m).1.rootTag = s.rootTag ∧
      (∀ j sl, (buildChain s top m).1.segs j sl =
        if sl = 0 ∧ j = top ∧ m ≠ 0 then s.nextId
        else if sl = 0 ∧ s.nextId ≤ j ∧ j + 1 < s.nextId + m then j + 1
        else if s.nextId ≤ j ∧ j < s.nextId + m then 0
        else s.segs j sl) := by
  intro m
  induction m with
  | zero =>
    intro s top htop
    refine ⟨rfl, rfl, rfl, rfl, ?_⟩
    intro j sl
    show s.segs j sl = _
    split_ifs <;> first | rfl | omega
  | succ m ih =>
    intro s top htop
    have hB : buildChain s top (m + 1)
        = buildChain (writeSlot (allocSeg s).1 top 0 s.nextId) s.nextId m := rfl
    have hBnext : (writeSlot (allocSeg s).1 top 0 s.nextId).nextId = s.nextId + 1 := rfl
    have hBroot : (writeSlot (allocSeg s).1 top 0 s.nextId).root = s.root := rfl
    have hBtag : (writeSlot (allocSeg s).1 top 0 s.nextId).rootTag = s.rootTag := rfl
    have hBsegs : ∀ j sl, (writeSlot (allocSeg s).1 top 0 s.nextId).segs j sl =
        if j = top ∧ sl = 0 then s.nextId
        else if j = s.nextId then 0 else s.segs j sl := by
      intro j sl
      rw [writeSlot_segs, allocSeg_segs]
    have htop2 : s.nextId < (writeSlot (allocSeg s).1 top 0 s.nextId).nextId := by
      rw [hBnext]; omega
    obtain ⟨h1, h2, h3, h4, h5⟩ := ih (writeSlot (allocSeg s).1 top 0 s.nextId) s.nextId htop2
    rw [hB]
    refine ⟨by rw [h1, hBnext]; omega, ?_, by rw [h3, hBroot], by rw [h4, hBtag], ?_⟩
    · rw [h2, hBnext]
      rcases Nat.eq_zero_or_pos m with hm | hm
      · subst hm
        simp
      · rw [if_neg (by omega), if_neg (by omega)]
        omega
    · intro j sl
      rw [h5 j sl, hBsegs j sl, hBnext]
      split_ifs <;> first | rfl | omega

/-- A segment whose slots are all null contributes height 1 (itself). -/
theorem segHeightF_all_zero (s : GAState) (fuel id : Nat)
    (h : ∀ sl, s.segs id sl = 0) : segHeightF s (fuel + 1) id = 1 := by
  have hfold : ∀ (l : List Nat) (acc : Nat),
      l.foldl
        (fun acc j =>
          max acc (if s.segs id j ≠ 0 then segHeightF s fuel (s.segs id j) else 0))
        acc = acc := by
    intro l
    induction l with
    | nil => intro acc; rfl
    | cons a t ih =>
      intro acc
      simp only [List.foldl_cons]
      have h1 :
          max acc (if s.segs id a ≠ 0 then segHeightF s fuel (s.segs id a) else 0)
            = acc := by
        simp [h a]
      rw [h1]
      exact ih acc
  show 1 + _ = 1
  rw [hfold]

end GA

/-- The state published by the grow branch when a fresh `GrowableArray`
(height 0) serves `get(1024)`: the index needs two digits, so `get`
CASes the root cell to the new topmost segment with tag 2 before any
deeper segment exists (growable_array.rs lines 252-287; the chain and
hook are built only when `height != 0`). -/
def c3GrowState : GA.GAState := GA.grow GA.initGA (GA.digitsOf 1024)

/-- Counterexample to C3 as stated: in the state published by the grow
CAS of `get(1024)` on a fresh array, the root tag is 2 but only the
single empty topmost segment is reachable, so the tag does not equal
the height of the reachable segment tree, and no chain was made
reachable before publishing. -/
theorem c3_tag_exceeds_reachable_height :
    c3GrowState.rootTag = 2 ∧ GA.reachHeight c3GrowState = 1 := by
  have hzero : ∀ sl, c3GrowState.segs c3GrowState.root sl = 0 := by
    intro sl
    simp [c3GrowState, GA.grow, GA.allocSeg, GA.initGA]
  refine ⟨rfl, ?_⟩
  have htag : c3GrowState.rootTag = 2 := rfl
  have hroot : c3GrowState.root ≠ 0 := by decide
  rw [GA.reachHeight, if_neg hroot, htag]
  exact GA.segHeightF_all_zero _ 1 _ hzero

/-- C3 (amended): the root tag published by the grow branch is the
number of base-1024 digits `n = v.length` of the requested index, an
upper bound on (not always equal to) the height of the reachable tree.
When the pre-existing height `h` is positive, grow makes the whole
chain reachable before publishing: following slot 0 from the new root,
the first `n - h` segments (one topmost plus `n - h - 1` intermediates)
are fresh, and the pre-existing root hangs below them.  When `h = 0`
the published tree is the single empty topmost segment (height 1), so
equality of tag and reachable height fails transiently. -/
theorem c3_grow_spec (s : GA.GAState) (v : List Nat)
    (hlen : s.rootTag < v.length) (hpos : 0 < s.nextId) :
    (GA.grow s v).rootTag = v.length ∧
    (GA.grow s v).root = s.nextId ∧
    (0 < s.rootTag →
      (∀ j, j ≤ v.length - s.rootTag - 1 →
        GA.slot0Iter (GA.grow s v) j (GA.grow s v).root = s.nextId + j) ∧
      GA.slot0Iter (GA.grow s v) (v.length - s.rootTag) (GA.grow s v).root
        = s.root) ∧
    (s.rootTag = 0 → GA.reachHeight (GA.grow s v) = 1) := by
  have hroot : (GA.grow s v).root = s.nextId := rfl
  have htag : (GA.grow s v).rootTag = v.length := rfl
  by_cases h0 : s.rootTag = 0
  · refine ⟨htag, hroot, fun ht => absurd h0 (by omega), fun _ => ?_⟩
    have hsegs : ∀ sl, (GA.grow s v).segs s.nextId sl = 0 := by
      intro sl
      show (if s.rootTag ≠ 0 then _ else (GA.allocSeg s).1).segs s.nextId sl = 0
      rw [if_neg (by omega)]
      rw [GA.allocSeg_segs, if_pos rfl]
    obtain ⟨n, hn⟩ : ∃ n, v.length = n + 1 := ⟨v.length - 1, by omega⟩
    rw [GA.reachHeight, if_neg (by omega), htag, hroot, hn]
    exact GA.segHeightF_all_zero _ n _ hsegs
  · have h1 : s.rootTag ≠ 0 := h0
    have hAnext : (GA.allocSeg s).1.nextId = s.nextId + 1 := rfl
    obtain ⟨hc1, hc2, hc3, hc4, hc5⟩ :=
      GA.buildChain_spec (v.length - s.rootTag - 1) (GA.allocSeg s).1 s.nextId
        (by rw [hAnext]; omega)
    rw [hAnext] at hc1 hc2 hc5
    have hlast :
        (GA.buildChain (GA.allocSeg s).1 s.nextId (v.length - s.rootTag - 1)).2
          = s.nextId + (v.length - s.rootTag - 1) := by
      rw [hc2]
      split_ifs <;> omega
    have hsegs : ∀ j sl, (GA.grow s v).segs j sl =
        if j = s.nextId + (v.length - s.rootTag - 1) ∧ sl = 0 then s.root
        else (GA.buildChain (GA.allocSeg s).1 s.nextId
          (v.length - s.rootTag - 1)).1.segs j sl := by
      intro j sl
      show (if s.rootTag ≠ 0
            then GA.writeSlot
              (GA.buildChain (GA.allocSeg s).1 s.nextId
                (v.length - s.rootTag - 1)).1
              (GA.buildChain (GA.allocSeg s).1 s.nextId
                (v.length - s.rootTag - 1)).2
              0 s.root
            else (GA.allocSeg s).1).segs j sl = _
      rw [if_pos h1, GA.writeSlot_segs, hlast]
    have hchain : ∀ j, j ≤ v.length - s.rootTag - 1 →
        GA.slot0Iter (GA.grow s v) j (GA.grow s v).root = s.nextId + j := by
      intro j
      induction j with
      | zero => intro _; rw [hroot]; rfl
      | succ j ih =>
        intro hj
        rw [GA.slot0Iter_succ_back, ih (by omega), hsegs, if_neg (by omega),
          hc5]
        split_ifs <;> omega
    refine ⟨htag, hroot, fun _ => ⟨hchain, ?_⟩, fun h => absurd h h1⟩
    have hm1 : v.length - s.rootTag = (v.length - s.rootTag - 1) + 1 := by
      omega
    rw [hm1, GA.slot0Iter_succ_back, hchain _ (le_refl _), hsegs,
      if_pos ⟨rfl, rfl⟩]

/-- A concrete height-1 state: the array after `get(1)` on a fresh
`GrowableArray`. -/
def c3WitState : GA.GAState := (GA.getCell GA.initGA 1).1

/-- Witness for C3 at the concrete height-1 state growing to the three
digits of index 1048576. -/
theorem c3_grow_spec_witness :
    c3WitState.rootTag < (GA.digitsOf 1048576).length ∧
    0 < c3WitState.nextId ∧
    ((GA.grow c3WitState (GA.digitsOf 1048576)).rootTag
        = (GA.digitsOf 1048576).length ∧
      (GA.grow c3WitState (GA.digitsOf 1048576)).root = c3WitState.nextId ∧
      (0 < c3WitState.rootTag →
        (∀ j, j ≤ (GA.digitsOf 1048576).length - c3WitState.rootTag - 1 →
          GA.slot0Iter (GA.grow c3WitState (GA.digitsOf 1048576)) j
            (GA.grow c3WitState (GA.digitsOf 1048576)).root
            = c3WitState.nextId + j) ∧
        GA.slot0Iter (GA.grow c3WitState (GA.digitsOf 1048576))
          ((GA.digitsOf 1048576).length - c3WitState.rootTag)
          (GA.grow c3WitState (GA.digitsOf 1048576)).root = c3WitState.root) ∧
      (c3WitState.rootTag = 0 →
        GA.reachHeight (GA.grow c3WitState (GA.digitsOf 1048576)) = 1)) :=
  ⟨by decide, by decide,
    c3_grow_spec c3WitState (GA.digitsOf 1048576) (by decide) (by decide)⟩

/-- The S1 run with the source constants: get and store 100 at index 1,
then 200 at index 0x3B and 300 at index 0x06. -/
def c4Get1 : GA.GAState × Nat × Nat := GA.getCell GA.initGA 1

/-- S1 run, after the first store. -/
def c4S1 : GA.GAState := GA.storeCell c4Get1.1 c4Get1.2 100

/-- S1 run, second get. -/
def c4Get2 : GA.GAState × Nat × Nat := GA.getCell c4S1 0x3B

/-- S1 run, after the second store. -/
def c4S2 : GA.GAState := GA.storeCell c4Get2.1 c4Get2.2 200

/-- S1 run, third get. -/
def c4Get3 : GA.GAState × Nat × Nat := GA.getCell c4S2 0x06

/-- S1 run, after the third store. -/
def c4S3 : GA.GAState := GA.storeCell c4Get3.1 c4Get3.2 300

/-- Counterexample to C4 as stated: with the source constant
`SEGMENT_LOGSIZE = 10` (segment size 1024), the indices 1, 0x3B and
0x06 all fit in one segment, so after the three stores the root tag is
1, not 2 (the spec's height 2 comes from the doc-comment example, which
assumes segment size 8). -/
theorem c4_root_tag_ne_two : c4S3.rootTag = 1 ∧ c4S3.rootTag ≠ 2 := by
  decide

/-- C4 (amended): after storing 100 at index 1, then 200 at index 0x3B
and 300 at index 0x06 on a fresh `GrowableArray`, reading the cells
returned by `get` yields exactly the three stored elements, and the
height tag of the root equals 1. -/
theorem c4_reads_and_height :
    GA.readCell c4S3 c4Get1.2 = 100 ∧
    GA.readCell c4S3 c4Get2.2 = 200 ∧
    GA.readCell c4S3 c4Get3.2 = 300 ∧
    c4S3.rootTag = 1 := by
  decide

namespace TP

/-- Interleaving state of a `ThreadPool`: jobs sitting in the unbounded
channel, the shared `job_count` behind the mutex, the number of jobs a
worker is currently running, and the number of completed jobs. -/
structure PoolState where
  queue : Nat
  jobCount : Nat
  running : Nat
  completed : Nat
deriving DecidableEq

/-- A freshly created pool before any `execute`. -/
def initPool : PoolState := ⟨0, 0, 0, 0⟩

/-- Embedding of `ThreadPool::execute` (thread_pool.rs lines 110-118):
it only sends the job into the channel; it does not touch `job_count`. -/
def executeStep (s : PoolState) : PoolState := { s with queue := s.queue + 1 }

/-- Embedding of `ThreadPoolInner::start_job` (thread_pool.rs lines
44-48) as performed by a worker right after it dequeues a job
(lines 96-98). -/
def dequeueStartStep (s : PoolState) : PoolState :=
  { s with queue := s.queue - 1, jobCount := s.jobCount + 1,
           running := s.running + 1 }

/-- A worker finishing its job and calling `ThreadPoolInner::finish_job`
(thread_pool.rs lines 51-56, 98-99). -/
def finishStep (s : PoolState) : PoolState :=
  { s with jobCount := s.jobCount - 1, running := s.running - 1,
           completed := s.completed + 1 }

/-- The interleaving semantics: any thread may execute, any worker may
dequeue a pending job or finish a running one. -/
inductive PoolStep : PoolState → PoolState → Prop
  | execute (s : PoolState) : PoolStep s (executeStep s)
  | dequeueStart (s : PoolState) (h : 0 < s.queue) : PoolStep s (dequeueStartStep s)
  | finish (s : PoolState) (h : 0 < s.running) : PoolStep s (finishStep s)

/-- The wake-up condition of `ThreadPoolInner::wait_empty`
(thread_pool.rs lines 62-68): `join` returns as soon as the shared
`job_count` is zero. -/
def joinCanReturn (s : PoolState) : Bool := s.jobCount == 0

end TP

/-- C5: the claim says `join()` blocks until every job enqueued before
`join` began has completed, including jobs still sitting in the channel.
The code disagrees with the claim and with the doc comment of `join`
(thread_pool.rs lines 120-122): workers increment `job_count` only
after dequeuing, so after a single `execute` and before any worker
dequeues, `job_count` is still 0 and `wait_empty` returns immediately
while the job sits unexecuted in the channel. -/
theorem c5_join_returns_early :
    TP.PoolStep TP.initPool (TP.executeStep TP.initPool) ∧
    TP.joinCanReturn (TP.executeStep TP.initPool) = true ∧
    (TP.executeStep TP.initPool).queue = 1 ∧
    (TP.executeStep TP.initPool).completed = 0 :=
  ⟨TP.PoolStep.execute TP.initPool, rfl, rfl, rfl⟩

namespace OFG

/-- A SeqLock-guarded `next` field of the optimistic list: the sequence
counter and the stored pointer (0 is null). -/
structure NextCell where
  seq : Nat
  ptr : Nat
deriving DecidableEq

/-- A node of the optimistic list. -/
structure ONode where
  data : Nat
  next : NextCell
deriving DecidableEq

/-- Heap of an `OptimisticFineGrainedListSet`: the head cell and the
node table (addressed by nonzero pointers; address 0 is null and is
never dereferenced by the embedded code). -/
structure OState where
  head : NextCell
  nodes : Nat → ONode

/-- Reference to a SeqLock cell: the list head or some node's `next`. -/
inductive CellRef where
  | headRef : CellRef
  | nodeRef : Nat → CellRef
deriving DecidableEq

/-- Read a SeqLock cell. -/
def readCellOf (st : OState) : CellRef → NextCell
  | .headRef => st.head
  | .nodeRef id => (st.nodes id).next

/-- Modelled from the spec (section 3, SeqLock cell): a read guard
remembers the cell and the (even) sequence number observed by
`read_lock`. -/
structure ReadGuardM where
  cell : CellRef
  saved : Nat
deriving DecidableEq

/-- Modelled from the spec (section 3): `ReadGuard::validate` (and
`finish`) succeed iff the sequence counter is unchanged since
`read_lock`. -/
def validateM (st : OState) (g : ReadGuardM) : Bool :=
  (readCellOf st g.cell).seq == g.saved

/-- State of an `Iter` (optimistic_fine_grained.rs lines 180-185): the
`prev` read guard and the loaded `curr` pointer. -/
structure IterStateM where
  prev : ReadGuardM
  curr : Nat
deriving DecidableEq

/-- Embedding of `Iterator::next` for `Iter`
(optimistic_fine_grained.rs lines 202-217): on null `curr` validate
`prev` and answer `None` or `Some(Err)`; otherwise read-lock the
current node's `next`, swap it in as the new `prev`, finish the old
guard (returning `Some(Err)` on failure), else advance and yield the
datum. -/
def iterNextM (st : OState) (it : IterStateM) :
    Option (Except Unit Nat) × IterStateM :=
  if it.curr = 0 then
    if validateM st it.prev then (none, it) else (some (.error ()), it)
  else
    let b := st.nodes it.curr
    let rg : ReadGuardM := ⟨.nodeRef it.curr, b.next.seq⟩
    if validateM st it.prev then (some (.ok b.data), ⟨rg, b.next.ptr⟩)
    else (some (.error ()), ⟨rg, it.curr⟩)

/-- Heap in which a writer bumped the head SeqLock (sequence 0 to 2)
after an iterator had read-locked it: e.g. the iterator was created on
an empty list, then another thread inserted a node at the head. -/
def c7State : OState := ⟨⟨2, 0⟩, fun _ => ⟨0, ⟨0, 0⟩⟩⟩

/-- The stale iterator: `prev` is the head guard saved at sequence 0,
`curr` is the null pointer it loaded before the writer intervened. -/
def c7Iter : IterStateM := ⟨⟨.headRef, 0⟩, 0⟩

end OFG

/-- C7: the claim (and the doc comment of `iter`,
optimistic_fine_grained.rs lines 188-190) says that after `next()` has
returned `Some(Err(()))` every further call returns `None`.  The code
disagrees: a failed validation leaves the iterator state in place (or
merely swaps in the fresh guard), so the stale iterator keeps answering
`Some(Err(()))` on every subsequent call instead of `None`. -/
theorem c7_iter_err_repeats :
    (OFG.iterNextM OFG.c7State OFG.c7Iter).1 = some (.error ()) ∧
    (OFG.iterNextM OFG.c7State
      (OFG.iterNextM OFG.c7State OFG.c7Iter).2).1 = some (.error ()) ∧
    (OFG.iterNextM OFG.c7State
      (OFG.iterNextM OFG.c7State OFG.c7Iter).2).1 ≠ none := by
  decide

namespace HP

/-- A hazard slot (hazard.rs lines 119-126): the occupancy flag and the
published hazard word; the immutable `next` links are the list order of
the bag itself. -/
structure HSlot where
  active : Bool
  hazard : Nat
deriving DecidableEq

/-- Embedding of `Drop for Shield` (hazard.rs lines 89-98): store
`false` into the slot's `active` flag; nothing else is written. -/
def dropShield : List HSlot → Nat → List HSlot
  | [], _ => []
  | sl :: rest, 0 => { sl with active := false } :: rest
  | sl :: rest, i + 1 => sl :: dropShield rest i

/-- Embedding of `HazardBag::try_acquire_inactive` (hazard.rs lines
185-204): walk the slot list, CAS the first inactive slot's flag from
false to true, and return its index with the updated bag. -/
def tryAcquireInactive : List HSlot → Option (Nat × List HSlot)
  | [] => none
  | sl :: rest =>
    if sl.active then
      (tryAcquireInactive rest).map (fun r => (r.1 + 1, sl :: r.2))
    else some (0, { sl with active := true } :: rest)

/-- Embedding of `HazardBag::all_hazards` (hazard.rs lines 207-226):
the hazard words of the currently active slots whose hazard is
nonzero. -/
def allHazards (bag : List HSlot) : List Nat :=
  (bag.filter (fun sl => sl.active && sl.hazard != 0)).map (·.hazard)

/-- Reads of other indices are unaffected by `dropShield`. -/
theorem dropShield_get_ne :
    ∀ (bag : List HSlot) (i j : Nat), j ≠ i →
      (dropShield bag i).get? j = bag.get? j := by
  intro bag
  induction bag with
  | nil => intro i j _; cases i <;> rfl
  | cons sl rest ih =>
    intro i j hji
    cases i with
    | zero =>
      cases j with
      | zero => omega
      | succ j => rfl
    | succ i =>
      cases j with
      | zero => rfl
      | succ j =>
        show (dropShield rest i).get? j = rest.get? j
        exact ih i j (by omega)

/-- The dropped slot keeps its hazard word and only loses its flag. -/
theorem dropShield_get_eq :
    ∀ (bag : List HSlot) (i : Nat) (sl : HSlot), bag.get? i = some sl →
      (dropShield bag i).get? i = some { sl with active := false } := by
  intro bag
  induction bag with
  | nil => intro i sl h; cases i <;> simp [List.get?] at h
  | cons a rest ih =>
    intro i sl h
    cases i with
    | zero =>
      simp [List.get?] at h
      subst h
      rfl
    | succ i =>
      show (dropShield rest i).get? i = _
      exact ih i sl h

/-- An active slot with a nonzero hazard word is visible to
`all_hazards`. -/
theorem mem_allHazards_of_get :
    ∀ (bag : List HSlot) (j : Nat) (sl : HSlot), bag.get? j = some sl →
      sl.active = true → sl.hazard ≠ 0 → sl.hazard ∈ allHazards bag := by
  intro bag
  induction bag with
  | nil => intro j sl h; cases j <;> simp [List.get?] at h
  | cons a rest ih =>
    intro j sl h hact hnz
    cases j with
    | zero =>
      injection h with h2
      subst h2
      have heq : allHazards (a :: rest) = a.hazard :: allHazards rest := by
        simp [allHazards, List.filter_cons, hact, hnz]
      rw [heq]
      exact List.mem_cons_self _ _
    | succ j =>
      have hmem := ih j sl h hact hnz
      by_cases hcond : (a.active && a.hazard != 0) = true
      · have heq : allHazards (a :: rest) = a.hazard :: allHazards rest := by
          simp [allHazards, List.filter_cons, hcond]
        rw [heq]
        exact List.mem_cons_of_mem _ hmem
      · have heq : allHazards (a :: rest) = allHazards rest := by
          simp only [allHazards, List.filter_cons, hcond]
          rw [if_neg (by simp [hcond])]
        rw [heq]
        exact hmem

/-- `try_acquire_inactive` activates an inactive slot in place: the
returned index addressed an inactive slot, which is re-activated with
its hazard word untouched, and every other slot is unchanged. -/
theorem tryAcquireInactive_spec :
    ∀ (bag bag2 : List HSlot) (j : Nat),
      tryAcquireInactive bag = some (j, bag2) →
      ∃ sl, bag.get? j = some sl ∧ sl.active = false ∧
        bag2.get? j = some { sl with active := true } ∧
        (∀ j2, j2 ≠ j → bag2.get? j2 = bag.get? j2) := by
  intro bag
  induction bag with
  | nil => intro bag2 j h; simp [tryAcquireInactive] at h
  | cons a rest ih =>
    intro bag2 j h
    by_cases hact : a.active = true
    · rw [tryAcquireInactive, if_pos hact] at h
      cases hrec : tryAcquireInactive rest with
      | none => rw [hrec] at h; simp at h
      | some r =>
        obtain ⟨r1, r2⟩ := r
        rw [hrec] at h
        injection h with h3
        injection h3 with hj hbag
        subst hj
        subst hbag
        obtain ⟨sl, h1, h2, h3, h4⟩ := ih r2 r1 hrec
        refine ⟨sl, ?_, h2, ?_, ?_⟩
        · show rest.get? r1 = some sl
          exact h1
        · show r2.get? r1 = _
          exact h3
        · intro j2 hne
          cases j2 with
          | zero => rfl
          | succ k =>
            show r2.get? k = rest.get? k
            exact h4 k (by omega)
    · rw [tryAcquireInactive, if_neg hact] at h
      injection h with h3
      injection h3 with hj hbag
      subst hj
      subst hbag
      have hfalse : a.active = false := by
        revert hact
        cases a.active <;> simp
      refine ⟨a, rfl, hfalse, rfl, ?_⟩
      intro j2 hne
      cases j2 with
      | zero => omega
      | succ k => rfl

end HP

/-- C10: dropping a `Shield` writes `false` to its slot's `active` flag
and leaves every other field of the slot (in particular the hazard
word) unchanged; every other slot is untouched; and when
`try_acquire_inactive` later recycles an inactive slot, the recycled
slot still carries the previous owner's hazard word, which is a member
of `all_hazards` as soon as the slot is re-activated. -/
theorem c10_shield_drop_frame (bag : List HP.HSlot) (i : Nat) (sl : HP.HSlot)
    (hget : bag.get? i = some sl) :
    (HP.dropShield bag i).get? i = some { sl with active := false } ∧
    (∀ j, j ≠ i → (HP.dropShield bag i).get? j = bag.get? j) ∧
    (∀ j bag2 sl2, HP.tryAcquireInactive (HP.dropShield bag i) = some (j, bag2) →
      (HP.dropShield bag i).get? j = some sl2 →
      bag2.get? j = some { sl2 with active := true } ∧
      (∀ j2, j2 ≠ j → bag2.get? j2 = (HP.dropShield bag i).get? j2) ∧
      (sl2.hazard ≠ 0 → sl2.hazard ∈ HP.allHazards bag2)) := by
  refine ⟨HP.dropShield_get_eq bag i sl hget,
    fun j hj => HP.dropShield_get_ne bag i j hj, ?_⟩
  intro j bag2 sl2 hacq hget2
  obtain ⟨sl3, h1, h2, h3, h4⟩ := HP.tryAcquireInactive_spec _ bag2 j hacq
  have hsl : sl3 = sl2 := by
    rw [h1] at hget2
    injection hget2
  subst hsl
  refine ⟨h3, h4, ?_⟩
  intro hnz
  exact HP.mem_allHazards_of_get bag2 j { sl3 with active := true } h3 rfl hnz

/-- Witness for C10: a bag with one active slot holding hazard word 42;
drop the shield, then re-acquire the slot. -/
theorem c10_shield_drop_frame_witness :
    ([⟨true, 42⟩] : List HP.HSlot).get? 0 = some ⟨true, 42⟩ ∧
    ((HP.dropShield [⟨true, 42⟩] 0).get? 0 = some ⟨false, 42⟩ ∧
     (∀ j, j ≠ 0 → (HP.dropShield [⟨true, 42⟩] 0).get? j
        = ([⟨true, 42⟩] : List HP.HSlot).get? j) ∧
     (∀ j bag2 sl2,
        HP.tryAcquireInactive (HP.dropShield [⟨true, 42⟩] 0) = some (j, bag2) →
        (HP.dropShield [⟨true, 42⟩] 0).get? j = some sl2 →
        bag2.get? j = some { sl2 with active := true } ∧
        (∀ j2, j2 ≠ j → bag2.get? j2 = (HP.dropShield [⟨true, 42⟩] 0).get? j2) ∧
        (sl2.hazard ≠ 0 → sl2.hazard ∈ HP.allHazards bag2))) :=
  ⟨rfl, c10_shield_drop_frame [⟨true, 42⟩] 0 ⟨true, 42⟩ rfl⟩

namespace CM

/-- One entry of the cache's inner `HashMap<K, Option<V>>`: missing
key, `None` (a producer is computing) or `Some v`. -/
inductive Entry where
  | absent
  | pending
  | filled (v : Nat)
deriving DecidableEq

/-- Program counter of one call to `Cache::get_or_insert_with`
(cache.rs lines 31-85).  Each lock-protected critical section of the
source is one atomic transition: `readCheck` is one iteration of the
first read-locked loop (lines 34-48), `writeEntry` the write-locked
entry match (lines 52-67), `spinWait` one iteration of the second
read-locked loop (lines 69-79), `runF` the producer running `f` with no
lock held (line 81), `writeBack` the final write-locked insert
(lines 82-84).  `done v` is a call that returned `v`; `stuck` is the
`unwrap` panic in the spin loop (unreachable). -/
inductive CPC where
  | readCheck
  | writeEntry
  | spinWait
  | runF
  | writeBack
  | done (v : Nat)
  | stuck
deriving DecidableEq

/-- One thread: the key of its call and its program counter. -/
structure TSt where
  key : Nat
  pc : CPC
deriving DecidableEq

/-- Interleaving state of a `Cache`: the shared map, the threads, and a
ghost count of how many times `f` has been invoked per key. -/
structure CState where
  map : Nat → Entry
  thr : Nat → TSt
  invoked : Nat → Nat

/-- Shared-map update at one key. -/
def updMap (s : CState) (k : Nat) (e : Entry) : CState :=
  { s with map := fun k2 => if k2 = k then e else s.map k2 }

/-- Program-counter update of one thread. -/
def updPc (s : CState) (t : Nat) (p : CPC) : CState :=
  { s with thr := fun t2 => if t2 = t then { s.thr t2 with pc := p } else s.thr t2 }

/-- Ghost bump of the invocation counter of one key. -/
def bumpInv (s : CState) (k : Nat) : CState :=
  { s with invoked := fun k2 => if k2 = k then s.invoked k2 + 1 else s.invoked k2 }

/-- The atomic step of thread `t`, following
`Cache::get_or_insert_with` (cache.rs lines 31-85) for the pure
producer function `f`. -/
def cstep (f : Nat → Nat) (s : CState) (t : Nat) : CState :=
  match (s.thr t).pc with
  | .readCheck =>
    match s.map (s.thr t).key with
    | .filled v => updPc s t (.done v)
    | .pending => s
    | .absent => updPc s t .writeEntry
  | .writeEntry =>
    match s.map (s.thr t).key with
    | .filled v => updPc s t (.done v)
    | .pending => updPc s t .spinWait
    | .absent => updPc (updMap s (s.thr t).key .pending) t .runF
  | .spinWait =>
    match s.map (s.thr t).key with
    | .filled v => updPc s t (.done v)
    | .pending => s
    | .absent => updPc s t .stuck
  | .runF => updPc (bumpInv s (s.thr t).key) t .writeBack
  | .writeBack =>
    updPc (updMap s (s.thr t).key (.filled (f (s.thr t).key))) t
      (.done (f (s.thr t).key))
  | .done _ => s
  | .stuck => s

/-- Initial state: all entries absent, every thread at the start of its
call (thread `t` calls with key `κ t`), no invocations yet. -/
def cinit (κ : Nat → Nat) : CState :=
  ⟨fun _ => .absent, fun t => ⟨κ t, .readCheck⟩, fun _ => 0⟩

/-- One interleaving step: some thread acts. -/
def CStepRel (f : Nat → Nat) (s s2 : CState) : Prop := ∃ t, s2 = cstep f s t

/-- Reachability from the initial state. -/
def CReach (f : Nat → Nat) (κ : Nat → Nat) (s : CState) : Prop :=
  Relation.ReflTransGen (CStepRel f) (cinit κ) s

/-- Thread `t` is mid-production for key `k` (has claimed the entry and
not yet published). -/
def prodAt (s : CState) (t k : Nat) : Prop :=
  (s.thr t).key = k ∧ ((s.thr t).pc = .runF ∨ (s.thr t).pc = .writeBack)

/-- Inductive invariant of the cache protocol. -/
def CInv (f : Nat → Nat) (s : CState) : Prop :=
  ∀ k,
    (s.map k = .absent → s.invoked k = 0 ∧
      (∀ t, (s.thr t).key = k →
        (s.thr t).pc = .readCheck ∨ (s.thr t).pc = .writeEntry)) ∧
    (s.map k = .pending →
      ∃ t, (s.thr t).key = k ∧
        (((s.thr t).pc = .runF ∧ s.invoked k = 0) ∨
         ((s.thr t).pc = .writeBack ∧ s.invoked k = 1)) ∧
        (∀ t2, prodAt s t2 k → t2 = t)) ∧
    (∀ v, s.map k = .filled v →
      v = f k ∧ s.invoked k = 1 ∧ (∀ t, ¬ prodAt s t k)) ∧
    (∀ t, (s.thr t).key = k → (s.thr t).pc = .spinWait → s.map k ≠ .absent) ∧
    (∀ t v, (s.thr t).key = k → (s.thr t).pc = .done v → s.map k = .filled v) ∧
    (∀ t, (s.thr t).key = k → (s.thr t).pc ≠ .stuck)

/-- Updating a program counter does not change the shared map. -/
theorem updPc_map (s : CState) (t : Nat) (p : CPC) : (updPc s t p).map = s.map := rfl

/-- Updating a program counter does not change the ghost counters. -/
theorem updPc_invoked (s : CState) (t : Nat) (p : CPC) :
    (updPc s t p).invoked = s.invoked := rfl

/-- Updating a program counter keeps every thread's key. -/
theorem updPc_key (s : CState) (t : Nat) (p : CPC) (t2 : Nat) :
    ((updPc s t p).thr t2).key = (s.thr t2).key := by
  by_cases h : t2 = t <;> simp [updPc, h]

/-- The updated thread has the new program counter. -/
theorem updPc_pc_eq (s : CState) (t : Nat) (p : CPC) :
    ((updPc s t p).thr t).pc = p := by
  simp [updPc]

/-- Other threads keep their program counters. -/
theorem updPc_pc_ne (s : CState) (t : Nat) (p : CPC) (t2 : Nat) (h : t2 ≠ t) :
    ((updPc s t p).thr t2).pc = (s.thr t2).pc := by
  simp [updPc, h]

/-- Updating the map does not change the threads. -/
theorem updMap_thr (s : CState) (k : Nat) (e : Entry) :
    (updMap s k e).thr = s.thr := rfl

/-- Updating the map does not change the ghost counters. -/
theorem updMap_invoked (s : CState) (k : Nat) (e : Entry) :
    (updMap s k e).invoked = s.invoked := rfl

/-- The updated entry. -/
theorem updMap_map_eq (s : CState) (k : Nat) (e : Entry) :
    (updMap s k e).map k = e := by
  simp [updMap]

/-- Other entries are unchanged. -/
theorem updMap_map_ne (s : CState) (k : Nat) (e : Entry) (k2 : Nat)
    (h : k2 ≠ k) : (updMap s k e).map k2 = s.map k2 := by
  simp [updMap, h]

/-- Bumping a ghost counter does not change the map. -/
theorem bumpInv_map (s : CState) (k : Nat) : (bumpInv s k).map = s.map := rfl

/-- Bumping a ghost counter does not change the threads. -/
theorem bumpInv_thr (s : CState) (k : Nat) : (bumpInv s k).thr = s.thr := rfl

/-- The bumped counter. -/
theorem bumpInv_invoked_eq (s : CState) (k : Nat) :
    (bumpInv s k).invoked k = s.invoked k + 1 := by
  simp [bumpInv]

/-- Other counters are unchanged. -/
theorem bumpInv_invoked_ne (s : CState) (k k2 : Nat) (h : k2 ≠ k) :
    (bumpInv s k).invoked k2 = s.invoked k2 := by
  simp [bumpInv, h]

/-- A producer in a pc-updated state, other than the updated thread,
was a producer before. -/
theorem prodAt_updPc_ne (s : CState) (t : Nat) (p : CPC) (t2 k : Nat)
    (h : t2 ≠ t) : prodAt (updPc s t p) t2 k ↔ prodAt s t2 k := by
  rw [prodAt, prodAt, updPc_key, updPc_pc_ne s t p t2 h]

/-- The updated thread is a producer iff the new pc makes it one. -/
theorem prodAt_updPc_eq (s : CState) (t : Nat) (p : CPC) (k : Nat) :
    prodAt (updPc s t p) t k ↔
      ((s.thr t).key = k ∧ (p = .runF ∨ p = .writeBack)) := by
  rw [prodAt, updPc_key, updPc_pc_eq]

/-- Preservation when a reader observes a filled entry and completes:
the step to `done v` keeps the invariant, provided the stepping thread
was not mid-production. -/
theorem cinv_done (f : Nat → Nat) (s : CState) (u : Nat) (v : Nat)
    (h : CInv f s) (hm : s.map ((s.thr u).key) = .filled v)
    (hnp : ¬ prodAt s u ((s.thr u).key)) :
    CInv f (updPc s u (.done v)) := by
  intro k
  obtain ⟨hA, hP, hF, hS, hD, hN⟩ := h k
  simp only [updPc_map, updPc_invoked, updPc_key]
  refine ⟨?_, ?_, ?_, ?_, ?_, ?_⟩
  · intro hmk
    obtain ⟨h1, h2⟩ := hA hmk
    refine ⟨h1, ?_⟩
    intro t hkt
    by_cases ht : t = u
    · subst ht
      rw [hkt, hmk] at hm
      cases hm
    · rw [updPc_pc_ne s u _ t ht]
      exact h2 t hkt
  · intro hmk
    obtain ⟨t, hkt, hbr, huniq⟩ := hP hmk
    have htu : t ≠ u := by
      intro he
      subst he
      refine hnp ⟨hkt.trans ?_, ?_⟩
      · rw [hkt] at hm
        by_contra hne
        rw [hmk] at hm
        cases hm
      · rcases hbr with ⟨h1, _⟩ | ⟨h1, _⟩
        · exact Or.inl h1
        · exact Or.inr h1
    refine ⟨t, hkt, ?_, ?_⟩
    · rw [updPc_pc_ne s u _ t htu]
      exact hbr
    · intro t2 hp2
      by_cases ht2 : t2 = u
      · subst ht2
        rw [prodAt_updPc_eq] at hp2
        rcases hp2.2 with h1 | h1 <;> cases h1
      · exact huniq t2 ((prodAt_updPc_ne s u _ t2 k ht2).mp hp2)
  · intro v2 hmk
    obtain ⟨e1, e2, e3⟩ := hF v2 hmk
    refine ⟨e1, e2, ?_⟩
    intro t2 hp2
    by_cases ht2 : t2 = u
    · subst ht2
      rw [prodAt_updPc_eq] at hp2
      rcases hp2.2 with h1 | h1 <;> cases h1
    · exact e3 t2 ((prodAt_updPc_ne s u _ t2 k ht2).mp hp2)
  · intro t hkt hsw
    by_cases ht : t = u
    · subst ht
      rw [updPc_pc_eq] at hsw
      cases hsw
    · rw [updPc_pc_ne s u _ t ht] at hsw
      exact hS t hkt hsw
  · intro t v2 hkt hdn
    by_cases ht : t = u
    · subst ht
      rw [updPc_pc_eq] at hdn
      injection hdn with hv
      subst hv
      rw [hkt] at hm
      exact hm
    · rw [updPc_pc_ne s u _ t ht] at hdn
      exact hD t v2 hkt hdn
  · intro t hkt
    by_cases ht : t = u
    · subst ht
      rw [updPc_pc_eq]
      intro hc
      cases hc
    · rw [updPc_pc_ne s u _ t ht]
      exact hN t hkt

/-- Preservation when a reader finds its key absent and proceeds to the
write-locked entry check. -/
theorem cinv_to_writeEntry (f : Nat → Nat) (s : CState) (u : Nat)
    (h : CInv f s) (hm : s.map ((s.thr u).key) = .absent)
    (hpc : (s.thr u).pc = .readCheck) :
    CInv f (updPc s u .writeEntry) := by
  intro k
  obtain ⟨hA, hP, hF, hS, hD, hN⟩ := h k
  simp only [updPc_map, updPc_invoked, updPc_key]
  refine ⟨?_, ?_, ?_, ?_, ?_, ?_⟩
  · intro hmk
    obtain ⟨h1, h2⟩ := hA hmk
    refine ⟨h1, ?_⟩
    intro t hkt
    by_cases ht : t = u
    · subst ht
      rw [updPc_pc_eq]
      exact Or.inr rfl
    · rw [updPc_pc_ne s u _ t ht]
      exact h2 t hkt
  · intro hmk
    obtain ⟨t, hkt, hbr, huniq⟩ := hP hmk
    have htu : t ≠ u := by
      intro he
      subst he
      rcases hbr with ⟨h1, _⟩ | ⟨h1, _⟩ <;> rw [hpc] at h1 <;> cases h1
    refine ⟨t, hkt, ?_, ?_⟩
    · rw [updPc_pc_ne s u _ t htu]
      exact hbr
    · intro t2 hp2
      by_cases ht2 : t2 = u
      · subst ht2
        rw [prodAt_updPc_eq] at hp2
        rcases hp2.2 with h1 | h1 <;> cases h1
      · exact huniq t2 ((prodAt_updPc_ne s u _ t2 k ht2).mp hp2)
  · intro v2 hmk
    obtain ⟨e1, e2, e3⟩ := hF v2 hmk
    refine ⟨e1, e2, ?_⟩
    intro t2 hp2
    by_cases ht2 : t2 = u
    · subst ht2
      rw [prodAt_updPc_eq] at hp2
      rcases hp2.2 with h1 | h1 <;> cases h1
    · exact e3 t2 ((prodAt_updPc_ne s u _ t2 k ht2).mp hp2)
  · intro t hkt hsw
    by_cases ht : t = u
    · subst ht
      rw [updPc_pc_eq] at hsw
      cases hsw
    · rw [updPc_pc_ne s u _ t ht] at hsw
      exact hS t hkt hsw
  · intro t v2 hkt hdn
    by_cases ht : t = u
    · subst ht
      rw [updPc_pc_eq] at hdn
      cases hdn
    · rw [updPc_pc_ne s u _ t ht] at hdn
      exact hD t v2 hkt hdn
  · intro t hkt
    by_cases ht : t = u
    · subst ht
      rw [updPc_pc_eq]
      intro hc
      cases hc
    · rw [updPc_pc_ne s u _ t ht]
      exact hN t hkt

/-- Preservation when the write-locked entry check finds a pending
entry and the caller proceeds to the spin loop. -/
theorem cinv_to_spinWait (f : Nat → Nat) (s : CState) (u : Nat)
    (h : CInv f s) (hm : s.map ((s.thr u).key) = .pending)
    (hpc : (s.thr u).pc = .writeEntry) :
    CInv f (updPc s u .spinWait) := by
  intro k
  obtain ⟨hA, hP, hF, hS, hD, hN⟩ := h k
  simp only [updPc_map, updPc_invoked, updPc_key]
  refine ⟨?_, ?_, ?_, ?_, ?_, ?_⟩
  · intro hmk
    obtain ⟨h1, h2⟩ := hA hmk
    refine ⟨h1, ?_⟩
    intro t hkt
    by_cases ht : t = u
    · subst ht
      rw [hkt, hmk] at hm
      cases hm
    · rw [updPc_pc_ne s u _ t ht]
      exact h2 t hkt
  · intro hmk
    obtain ⟨t, hkt, hbr, huniq⟩ := hP hmk
    have htu : t ≠ u := by
      intro he
      subst he
      rcases hbr with ⟨h1, _⟩ | ⟨h1, _⟩ <;> rw [hpc] at h1 <;> cases h1
    refine ⟨t, hkt, ?_, ?_⟩
    · rw [updPc_pc_ne s u _ t htu]
      exact hbr
    · intro t2 hp2
      by_cases ht2 : t2 = u
      · subst ht2
        rw [prodAt_updPc_eq] at hp2
        rcases hp2.2 with h1 | h1 <;> cases h1
      · exact huniq t2 ((prodAt_updPc_ne s u _ t2 k ht2).mp hp2)
  · intro v2 hmk
    obtain ⟨e1, e2, e3⟩ := hF v2 hmk
    refine ⟨e1, e2, ?_⟩
    intro t2 hp2
    by_cases ht2 : t2 = u
    · subst ht2
      rw [prodAt_updPc_eq] at hp2
      rcases hp2.2 with h1 | h1 <;> cases h1
    · exact e3 t2 ((prodAt_updPc_ne s u _ t2 k ht2).mp hp2)
  · intro t hkt hsw
    by_cases ht : t = u
    · subst ht
      rw [hkt] at hm
      rw [hm]
      intro hc
      cases hc
    · rw [updPc_pc_ne s u _ t ht] at hsw
      exact hS t hkt hsw
  · intro t v2 hkt hdn
    by_cases ht : t = u
    · subst ht
      rw [updPc_pc_eq] at hdn
      cases hdn
    · rw [updPc_pc_ne s u _ t ht] at hdn
      exact hD t v2 hkt hdn
  · intro t hkt
    by_cases ht : t = u
    · subst ht
      rw [updPc_pc_eq]
      intro hc
      cases hc
    · rw [updPc_pc_ne s u _ t ht]
      exact hN t hkt

/-- Producer status only depends on the threads, not the map. -/
theorem prodAt_updMap (s : CState) (k0 : Nat) (e : Entry) (t k : Nat) :
    prodAt (updMap s k0 e) t k ↔ prodAt s t k := by
  rw [prodAt, prodAt, updMap_thr]

/-- Preservation when the write-locked entry check finds the key absent:
the caller claims the entry (inserting the pending marker) and becomes
the unique producer. -/
theorem cinv_claim (f : Nat → Nat) (s : CState) (u : Nat)
    (h : CInv f s) (hm : s.map ((s.thr u).key) = .absent)
    (hpc : (s.thr u).pc = .writeEntry) :
    CInv f (updPc (updMap s ((s.thr u).key) .pending) u .runF) := by
  obtain ⟨hA0, _, _, _, _, _⟩ := h ((s.thr u).key)
  obtain ⟨hinv0, hthr0⟩ := hA0 hm
  intro k
  obtain ⟨hA, hP, hF, hS, hD, hN⟩ := h k
  by_cases hk : k = (s.thr u).key
  · subst hk
    simp only [updPc_map, updPc_invoked, updPc_key, updMap_thr,
      updMap_invoked, updMap_map_eq]
    refine ⟨?_, ?_, ?_, ?_, ?_, ?_⟩
    · intro hmk
      cases hmk
    · intro _
      refine ⟨u, rfl, Or.inl ⟨updPc_pc_eq _ u _, hinv0⟩, ?_⟩
      intro t2 hp2
      by_cases ht2 : t2 = u
      · exact ht2
      · exfalso
        rw [prodAt_updPc_ne _ u _ t2 _ ht2, prodAt_updMap] at hp2
        rcases hthr0 t2 hp2.1 with h1 | h1 <;>
          rcases hp2.2 with h2 | h2 <;> rw [h1] at h2 <;> cases h2
    · intro v2 hmk
      cases hmk
    · intro t hkt _
      intro hc
      cases hc
    · intro t v2 hkt hdn
      exfalso
      by_cases ht : t = u
      · subst ht
        rw [updPc_pc_eq] at hdn
        cases hdn
      · rw [updPc_pc_ne _ u _ t ht] at hdn
        simp only [updMap_thr] at hdn
        rcases hthr0 t hkt with h1 | h1 <;> rw [h1] at hdn <;> cases hdn
    · intro t hkt
      by_cases ht : t = u
      · subst ht
        rw [updPc_pc_eq]
        intro hc
        cases hc
      · rw [updPc_pc_ne _ u _ t ht]
        simp only [updMap_thr]
        exact hN t hkt
  · simp only [updPc_map, updPc_invoked, updPc_key, updMap_thr,
      updMap_invoked, updMap_map_ne s ((s.thr u).key) Entry.pending k hk]
    refine ⟨?_, ?_, ?_, ?_, ?_, ?_⟩
    · intro hmk
      obtain ⟨h1, h2⟩ := hA hmk
      refine ⟨h1, ?_⟩
      intro t hkt
      by_cases ht : t = u
      · subst ht
        exact absurd hkt.symm hk
      · rw [updPc_pc_ne _ u _ t ht]
        simp only [updMap_thr]
        exact h2 t hkt
    · intro hmk
      obtain ⟨t, hkt, hbr, huniq⟩ := hP hmk
      have htu : t ≠ u := by
        intro he
        subst he
        exact hk hkt.symm
      refine ⟨t, hkt, ?_, ?_⟩
      · rw [updPc_pc_ne _ u _ t htu]
        simp only [updMap_thr]
        exact hbr
      · intro t2 hp2
        by_cases ht2 : t2 = u
        · exfalso
          subst ht2
          rw [prodAt_updPc_eq] at hp2
          simp only [updMap_thr] at hp2
          exact hk hp2.1.symm
        · rw [prodAt_updPc_ne _ u _ t2 k ht2, prodAt_updMap] at hp2
          exact huniq t2 hp2
    · intro v2 hmk
      obtain ⟨e1, e2, e3⟩ := hF v2 hmk
      refine ⟨e1, e2, ?_⟩
      intro t2 hp2
      by_cases ht2 : t2 = u
      · subst ht2
        rw [prodAt_updPc_eq] at hp2
        simp only [updMap_thr] at hp2
        exact hk hp2.1.symm
      · rw [prodAt_updPc_ne _ u _ t2 k ht2, prodAt_updMap] at hp2
        exact e3 t2 hp2
    · intro t hkt hsw
      by_cases ht : t = u
      · subst ht
        exact absurd hkt.symm hk
      · rw [updPc_pc_ne _ u _ t ht] at hsw
        simp only [updMap_thr] at hsw
        exact hS t hkt hsw
    · intro t v2 hkt hdn
      by_cases ht : t = u
      · subst ht
        exact absurd hkt.symm hk
      · rw [updPc_pc_ne _ u _ t ht] at hdn
        simp only [updMap_thr] at hdn
        exact hD t v2 hkt hdn
    · intro t hkt
      by_cases ht : t = u
      · subst ht
        exact absurd hkt.symm hk
      · rw [updPc_pc_ne _ u _ t ht]
        simp only [updMap_thr]
        exact hN t hkt

/-- Producer status is unaffected by the ghost counters. -/
theorem prodAt_bumpInv (s : CState) (k0 t k : Nat) :
    prodAt (bumpInv s k0) t k ↔ prodAt s t k := by
  rw [prodAt, prodAt, bumpInv_thr]

/-- Preservation when the unique producer runs `f` (no lock held): only
the ghost counter of its key moves, from 0 to 1. -/
theorem cinv_runF (f : Nat → Nat) (s : CState) (u : Nat)
    (h : CInv f s) (hpc : (s.thr u).pc = .runF) :
    CInv f (updPc (bumpInv s ((s.thr u).key)) u .writeBack) := by
  obtain ⟨hA0, hP0, hF0, _, _, _⟩ := h ((s.thr u).key)
  have hm : s.map ((s.thr u).key) = .pending := by
    rcases hmc : s.map ((s.thr u).key) with _ | _ | v
    · obtain ⟨_, h2⟩ := hA0 hmc
      rcases h2 u rfl with h3 | h3 <;> rw [hpc] at h3 <;> cases h3
    · rfl
    · obtain ⟨_, _, e3⟩ := hF0 v hmc
      exact absurd ⟨rfl, Or.inl hpc⟩ (e3 u)
  obtain ⟨t0, hkt0, hbr0, huniq0⟩ := hP0 hm
  have hut0 : u = t0 := huniq0 u ⟨rfl, Or.inl hpc⟩
  have hinv1 : s.invoked ((s.thr u).key) = 0 := by
    rcases hbr0 with ⟨_, h2⟩ | ⟨h1, _⟩
    · exact h2
    · rw [← hut0, hpc] at h1
      cases h1
  intro k
  obtain ⟨hA, hP, hF, hS, hD, hN⟩ := h k
  by_cases hk : k = (s.thr u).key
  · subst hk
    simp only [updPc_map, updPc_invoked, updPc_key, bumpInv_thr, bumpInv_map,
      bumpInv_invoked_eq]
    refine ⟨?_, ?_, ?_, ?_, ?_, ?_⟩
    · intro hmk
      rw [hm] at hmk
      cases hmk
    · intro _
      refine ⟨u, rfl, Or.inr ⟨updPc_pc_eq _ u _, by rw [hinv1]⟩, ?_⟩
      intro t2 hp2
      by_cases ht2 : t2 = u
      · exact ht2
      · rw [prodAt_updPc_ne _ u _ t2 _ ht2, prodAt_bumpInv] at hp2
        exact (huniq0 t2 hp2).trans hut0.symm
    · intro v2 hmk
      rw [hm] at hmk
      cases hmk
    · intro t hkt hsw
      rw [hm]
      intro hc
      cases hc
    · intro t v2 hkt hdn
      exfalso
      by_cases ht : t = u
      · subst ht
        rw [updPc_pc_eq] at hdn
        cases hdn
      · rw [updPc_pc_ne _ u _ t ht] at hdn
        simp only [bumpInv_thr] at hdn
        have hfd := hD t v2 hkt hdn
        rw [hm] at hfd
        cases hfd
    · intro t hkt
      by_cases ht : t = u
      · subst ht
        rw [updPc_pc_eq]
        intro hc
        cases hc
      · rw [updPc_pc_ne _ u _ t ht]
        simp only [bumpInv_thr]
        exact hN t hkt
  · simp only [updPc_map, updPc_invoked, updPc_key, bumpInv_thr, bumpInv_map,
      bumpInv_invoked_ne s ((s.thr u).key) k hk]
    refine ⟨?_, ?_, ?_, ?_, ?_, ?_⟩
    · intro hmk
      obtain ⟨h1, h2⟩ := hA hmk
      refine ⟨h1, ?_⟩
      intro t hkt
      by_cases ht : t = u
      · subst ht
        exact absurd hkt.symm hk
      · rw [updPc_pc_ne _ u _ t ht]
        simp only [bumpInv_thr]
        exact h2 t hkt
    · intro hmk
      obtain ⟨t, hkt, hbr, huniq⟩ := hP hmk
      have htu : t ≠ u := by
        intro he
        subst he
        exact hk hkt.symm
      refine ⟨t, hkt, ?_, ?_⟩
      · rw [updPc_pc_ne _ u _ t htu]
        simp only [bumpInv_thr]
        exact hbr
      · intro t2 hp2
        by_cases ht2 : t2 = u
        · exfalso
          subst ht2
          rw [prodAt_updPc_eq] at hp2
          simp only [bumpInv_thr] at hp2
          exact hk hp2.1.symm
        · rw [prodAt_updPc_ne _ u _ t2 k ht2, prodAt_bumpInv] at hp2
          exact huniq t2 hp2
    · intro v2 hmk
      obtain ⟨e1, e2, e3⟩ := hF v2 hmk
      refine ⟨e1, e2, ?_⟩
      intro t2 hp2
      by_cases ht2 : t2 = u
      · subst ht2
        rw [prodAt_updPc_eq] at hp2
        simp only [bumpInv_thr] at hp2
        exact hk hp2.1.symm
      · rw [prodAt_updPc_ne _ u _ t2 k ht2, prodAt_bumpInv] at hp2
        exact e3 t2 hp2
    · intro t hkt hsw
      by_cases ht : t = u
      · subst ht
        exact absurd hkt.symm hk
      · rw [updPc_pc_ne _ u _ t ht] at hsw
        simp only [bumpInv_thr] at hsw
        exact hS t hkt hsw
    · intro t v2 hkt hdn
      by_cases ht : t = u
      · subst ht
        exact absurd hkt.symm hk
      · rw [updPc_pc_ne _ u _ t ht] at hdn
        simp only [bumpInv_thr] at hdn
        exact hD t v2 hkt hdn
    · intro t hkt
      by_cases ht : t = u
      · subst ht
        exact absurd hkt.symm hk
      · rw [updPc_pc_ne _ u _ t ht]
        simp only [bumpInv_thr]
        exact hN t hkt

/-- Preservation when the producer publishes: the entry becomes filled
with `f k` and the producer completes. -/
theorem cinv_writeBack (f : Nat → Nat) (s : CState) (u : Nat)
    (h : CInv f s) (hpc : (s.thr u).pc = .writeBack) :
    CInv f (updPc (updMap s ((s.thr u).key) (.filled (f ((s.thr u).key)))) u
      (.done (f ((s.thr u).key)))) := by
  obtain ⟨hA0, hP0, hF0, _, _, _⟩ := h ((s.thr u).key)
  have hm : s.map ((s.thr u).key) = .pending := by
    rcases hmc : s.map ((s.thr u).key) with _ | _ | v
    · obtain ⟨_, h2⟩ := hA0 hmc
      rcases h2 u rfl with h3 | h3 <;> rw [hpc] at h3 <;> cases h3
    · rfl
    · obtain ⟨_, _, e3⟩ := hF0 v hmc
      exact absurd ⟨rfl, Or.inr hpc⟩ (e3 u)
  obtain ⟨t0, hkt0, hbr0, huniq0⟩ := hP0 hm
  have hut0 : u = t0 := huniq0 u ⟨rfl, Or.inr hpc⟩
  have hinv1 : s.invoked ((s.thr u).key) = 1 := by
    rcases hbr0 with ⟨h1, _⟩ | ⟨_, h2⟩
    · rw [← hut0, hpc] at h1
      cases h1
    · exact h2
  intro k
  obtain ⟨hA, hP, hF, hS, hD, hN⟩ := h k
  by_cases hk : k = (s.thr u).key
  · subst hk
    simp only [updPc_map, updPc_invoked, updPc_key, updMap_thr,
      updMap_invoked, updMap_map_eq]
    refine ⟨?_, ?_, ?_, ?_, ?_, ?_⟩
    · intro hmk
      cases hmk
    · intro hmk
      cases hmk
    · intro v2 hmk
      injection hmk with hv
      refine ⟨hv.symm, hinv1, ?_⟩
      intro t2 hp2
      by_cases ht2 : t2 = u
      · subst ht2
        rw [prodAt_updPc_eq] at hp2
        rcases hp2.2 with h1 | h1 <;> cases h1
      · rw [prodAt_updPc_ne _ u _ t2 _ ht2, prodAt_updMap] at hp2
        exact ht2 ((huniq0 t2 hp2).trans hut0.symm)
    · intro t hkt hsw
      intro hc
      cases hc
    · intro t v2 hkt hdn
      by_cases ht : t = u
      · subst ht
        rw [updPc_pc_eq] at hdn
        injection hdn with hv
        rw [hv]
      · exfalso
        rw [updPc_pc_ne _ u _ t ht] at hdn
        simp only [updMap_thr] at hdn
        have hfd := hD t v2 hkt hdn
        rw [hm] at hfd
        cases hfd
    · intro t hkt
      by_cases ht : t = u
      · subst ht
        rw [updPc_pc_eq]
        intro hc
        cases hc
      · rw [updPc_pc_ne _ u _ t ht]
        simp only [updMap_thr]
        exact hN t hkt
  · simp only [updPc_map, updPc_invoked, updPc_key, updMap_thr,
      updMap_invoked,
      updMap_map_ne s ((s.thr u).key) (Entry.filled (f ((s.thr u).key))) k hk]
    refine ⟨?_, ?_, ?_, ?_, ?_, ?_⟩
    · intro hmk
      obtain ⟨h1, h2⟩ := hA hmk
      refine ⟨h1, ?_⟩
      intro t hkt
      by_cases ht : t = u
      · subst ht
        exact absurd hkt.symm hk
      · rw [updPc_pc_ne _ u _ t ht]
        simp only [updMap_thr]
        exact h2 t hkt
    · intro hmk
      obtain ⟨t, hkt, hbr, huniq⟩ := hP hmk
      have htu : t ≠ u := by
        intro he
        subst he
        exact hk hkt.symm
      refine ⟨t, hkt, ?_, ?_⟩
      · rw [updPc_pc_ne _ u _ t htu]
        simp only [updMap_thr]
        exact hbr
      · intro t2 hp2
        by_cases ht2 : t2 = u
        · exfalso
          subst ht2
          rw [prodAt_updPc_eq] at hp2
          simp only [updMap_thr] at hp2
          exact hk hp2.1.symm
        · rw [prodAt_updPc_ne _ u _ t2 k ht2, prodAt_updMap] at hp2
          exact huniq t2 hp2
    · intro v2 hmk
      obtain ⟨e1, e2, e3⟩ := hF v2 hmk
      refine ⟨e1, e2, ?_⟩
      intro t2 hp2
      by_cases ht2 : t2 = u
      · subst ht2
        rw [prodAt_updPc_eq] at hp2
        simp only [updMap_thr] at hp2
        exact hk hp2.1.symm
      · rw [prodAt_updPc_ne _ u _ t2 k ht2, prodAt_updMap] at hp2
        exact e3 t2 hp2
    · intro t hkt hsw
      by_cases ht : t = u
      · subst ht
        exact absurd hkt.symm hk
      · rw [updPc_pc_ne _ u _ t ht] at hsw
        simp only [updMap_thr] at hsw
        exact hS t hkt hsw
    · intro t v2 hkt hdn
      by_cases ht : t = u
      · subst ht
        exact absurd hkt.symm hk
      · rw [updPc_pc_ne _ u _ t ht] at hdn
        simp only [updMap_thr] at hdn
        exact hD t v2 hkt hdn
    · intro t hkt
      by_cases ht : t = u
      · subst ht
        exact absurd hkt.symm hk
      · rw [updPc_pc_ne _ u _ t ht]
        simp only [updMap_thr]
        exact hN t hkt

/-- Off-thread frame of a pc update. -/
theorem updPc_thr_ne (s : CState) (t : Nat) (p : CPC) (t2 : Nat)
    (h : t2 ≠ t) : (updPc s t p).thr t2 = s.thr t2 := by
  simp [updPc, h]

/-- The invariant holds initially. -/
theorem cinv_init (f κ : Nat → Nat) : CInv f (cinit κ) := by
  intro k
  refine ⟨?_, ?_, ?_, ?_, ?_, ?_⟩
  · intro _
    exact ⟨rfl, fun t _ => Or.inl rfl⟩
  · intro hmk
    cases hmk
  · intro v2 hmk
    cases hmk
  · intro t _ hsw
    cases hsw
  · intro t v2 _ hdn
    cases hdn
  · intro t _ hc
    cases hc

/-- The invariant is preserved by every step of every thread. -/
theorem cinv_step (f : Nat → Nat) (s : CState) (u : Nat) (h : CInv f s) :
    CInv f (cstep f s u) := by
  rcases hpc : (s.thr u).pc with _ | _ | _ | _ | _ | v | _
  · rcases hmc : s.map ((s.thr u).key) with _ | _ | v
    · have hstep : cstep f s u = updPc s u .writeEntry := by
        simp only [cstep, hpc, hmc]
      rw [hstep]
      exact cinv_to_writeEntry f s u h hmc hpc
    · have hstep : cstep f s u = s := by
        simp only [cstep, hpc, hmc]
      rw [hstep]
      exact h
    · have hstep : cstep f s u = updPc s u (.done v) := by
        simp only [cstep, hpc, hmc]
      rw [hstep]
      refine cinv_done f s u v h hmc ?_
      intro hp
      rcases hp.2 with h1 | h1 <;> rw [hpc] at h1 <;> cases h1
  · rcases hmc : s.map ((s.thr u).key) with _ | _ | v
    · have hstep :
          cstep f s u = updPc (updMap s ((s.thr u).key) .pending) u .runF := by
        simp only [cstep, hpc, hmc]
      rw [hstep]
      exact cinv_claim f s u h hmc hpc
    · have hstep : cstep f s u = updPc s u .spinWait := by
        simp only [cstep, hpc, hmc]
      rw [hstep]
      exact cinv_to_spinWait f s u h hmc hpc
    · have hstep : cstep f s u = updPc s u (.done v) := by
        simp only [cstep, hpc, hmc]
      rw [hstep]
      refine cinv_done f s u v h hmc ?_
      intro hp
      rcases hp.2 with h1 | h1 <;> rw [hpc] at h1 <;> cases h1
  · rcases hmc : s.map ((s.thr u).key) with _ | _ | v
    · obtain ⟨_, _, _, hS0, _, _⟩ := h ((s.thr u).key)
      exact absurd hmc (hS0 u rfl hpc)
    · have hstep : cstep f s u = s := by
        simp only [cstep, hpc, hmc]
      rw [hstep]
      exact h
    · have hstep : cstep f s u = updPc s u (.done v) := by
        simp only [cstep, hpc, hmc]
      rw [hstep]
      refine cinv_done f s u v h hmc ?_
      intro hp
      rcases hp.2 with h1 | h1 <;> rw [hpc] at h1 <;> cases h1
  · have hstep : cstep f s u = updPc (bumpInv s ((s.thr u).key)) u .writeBack := by
      simp only [cstep, hpc]
    rw [hstep]
    exact cinv_runF f s u h hpc
  · have hstep : cstep f s u =
        updPc (updMap s ((s.thr u).key) (.filled (f ((s.thr u).key)))) u
          (.done (f ((s.thr u).key))) := by
      simp only [cstep, hpc]
    rw [hstep]
    exact cinv_writeBack f s u h hpc
  · have hstep : cstep f s u = s := by
      simp only [cstep, hpc]
    rw [hstep]
    exact h
  · have hstep : cstep f s u = s := by
      simp only [cstep, hpc]
    rw [hstep]
    exact h

/-- The invariant holds in every reachable state. -/
theorem cinv_reach (f κ : Nat → Nat) (s : CState) (h : CReach f κ s) :
    CInv f s := by
  induction h with
  | refl => exact cinv_init f κ
  | tail _ hstep ih =>
    obtain ⟨t, ht⟩ := hstep
    rw [ht]
    exact cinv_step f _ t ih

end CM

/-- C6: over every interleaving of any number of threads calling
`get_or_insert_with` (thread `t` uses key `κ t`; the producer closure
is the pure function `f`), in every reachable state the closure has run
at most once per key; every thread whose call has returned got the
value of the unique invocation for its key (which by then has happened
exactly once); and the step in which the producer runs `f` touches
neither the shared map nor any other thread, so calls on distinct keys
are not serialized by it. -/
theorem c6_single_flight (f κ : Nat → Nat) (s : CM.CState)
    (h : CM.CReach f κ s) :
    (∀ k, s.invoked k ≤ 1) ∧
    (∀ t v, (s.thr t).pc = .done v →
      v = f ((s.thr t).key) ∧ s.invoked ((s.thr t).key) = 1) ∧
    (∀ t, (s.thr t).pc = .runF →
      (CM.cstep f s t).map = s.map ∧
      (∀ t2, t2 ≠ t → (CM.cstep f s t).thr t2 = s.thr t2)) := by
  have hinv := CM.cinv_reach f κ s h
  refine ⟨?_, ?_, ?_⟩
  · intro k
    obtain ⟨hA, hP, hF, _, _, _⟩ := hinv k
    rcases hmc : s.map k with _ | _ | v
    · rw [(hA hmc).1]
      omega
    · obtain ⟨t, _, hbr, _⟩ := hP hmc
      rcases hbr with ⟨_, h2⟩ | ⟨_, h2⟩ <;> rw [h2]
      · omega
    · obtain ⟨_, h2, _⟩ := hF v hmc
      rw [h2]
  · intro t v hdn
    obtain ⟨_, _, hF, _, hD, _⟩ := hinv ((s.thr t).key)
    obtain ⟨e1, e2, _⟩ := hF v (hD t v rfl hdn)
    exact ⟨e1, e2⟩
  · intro t hpc
    have hstep : CM.cstep f s t =
        CM.updPc (CM.bumpInv s ((s.thr t).key)) t .writeBack := by
      simp only [CM.cstep, hpc]
    constructor
    · rw [hstep, CM.updPc_map, CM.bumpInv_map]
    · intro t2 ht2
      rw [hstep, CM.updPc_thr_ne _ t _ t2 ht2, CM.bumpInv_thr]

/-- The producer function of the C6 witness run. -/
def c6f : Nat → Nat := fun n => n + 7

/-- The key assignment of the C6 witness run: every thread calls with
key 0. -/
def c6kappa : Nat → Nat := fun _ => 0

/-- Witness state: thread 0 has passed the read check, claimed the
entry, and run the producer. -/
def c6s : CM.CState :=
  CM.cstep c6f (CM.cstep c6f (CM.cstep c6f (CM.cinit c6kappa) 0) 0) 0

/-- Witness for C6 at a concrete three-step run of thread 0. -/
theorem c6_single_flight_witness :
    CM.CReach c6f c6kappa c6s ∧
    ((∀ k, c6s.invoked k ≤ 1) ∧
     (∀ t v, (c6s.thr t).pc = .done v →
       v = c6f ((c6s.thr t).key) ∧ c6s.invoked ((c6s.thr t).key) = 1) ∧
     (∀ t, (c6s.thr t).pc = .runF →
       (CM.cstep c6f c6s t).map = c6s.map ∧
       (∀ t2, t2 ≠ t → (CM.cstep c6f c6s t).thr t2 = c6s.thr t2))) := by
  have hr : CM.CReach c6f c6kappa c6s :=
    Relation.ReflTransGen.tail
      (Relation.ReflTransGen.tail
        (Relation.ReflTransGen.tail Relation.ReflTransGen.refl ⟨0, rfl⟩)
        ⟨0, rfl⟩)
      ⟨0, rfl⟩
  exact ⟨hr, c6_single_flight c6f c6kappa c6s hr⟩

/-- State of the S3 scenario: five inserts of distinct valid keys into a
fresh `SplitOrderedList`. -/
def c1Run : SO.SOState Nat × Bool := SO.insertRun (SO.initSO Nat) [5, 13, 21, 37, 69]

/-- C1: the claim asserts that after 5 successful inserts into a fresh
map (size 2, LOAD_FACTOR 2) the bucket count `size` is observable as 4.
The code disagrees with the claim and with its own doc comment
(split_ordered_list.rs line 42, `size` is doubled when
`count > size * LOAD_FACTOR`): `resize` tests `count / size > LOAD_FACTOR`
with integer division, and 5 / 2 = 2 is not greater than 2, so all five
inserts succeed, count is 5, and `size` remains 2 forever. -/
theorem c1_size_stays_two :
    c1Run.2 = true ∧ c1Run.1.count = 5 ∧ c1Run.1.size = 2 ∧ c1Run.1.size ≠ 4 := by
  decide

/-- State of the S2 scenario after inserting keys 5, 13, 21, 37 with
mirrored values into a fresh `SplitOrderedList`. -/
def c2Ins : SO.SOState Nat × Bool := SO.insertRun (SO.initSO Nat) [5, 13, 21, 37]

/-- Outcome of deleting key 13 from the S2 state. -/
def c2Del : Except Unit Nat × SO.SOState Nat := SO.deleteSO c2Ins.1 13

/-- C9: for a power-of-two size and a bucket index `b < size`, each
recursive call of `lookup_bucket` is on the strictly smaller index
`b - 2 ^ log2 b` (the highest power of two at most `b` subtracted from
`b`), and iterating the parent map reaches index 0 within `log2 size`
steps, so the recursion depth is bounded by `log2 size`. -/
theorem c9_lookup_bucket_terminates (e b : Nat) (hb : b < 2 ^ e) :
    (0 < b → SO.parentIdx (2 ^ e) b = b - 2 ^ Nat.log 2 b ∧
      SO.parentIdx (2 ^ e) b < b) ∧
    (SO.parentIdx (2 ^ e))^[e] b = 0 := by
  constructor
  · intro hpos
    exact ⟨SO.parentIdx_eq e b hpos hb, (SO.parentIdx_lt e b hpos hb).2⟩
  · exact SO.parentIdx_iter_zero e e b hb hb

/-- Witness for C9 at size 8, bucket index 5. -/
theorem c9_lookup_bucket_terminates_witness :
    (5 : Nat) < 2 ^ 3 ∧
    ((0 < 5 → SO.parentIdx (2 ^ 3) 5 = 5 - 2 ^ Nat.log 2 5 ∧
      SO.parentIdx (2 ^ 3) 5 < 5) ∧
    (SO.parentIdx (2 ^ 3))^[3] 5 = 0) :=
  ⟨by norm_num, c9_lookup_bucket_terminates 3 5 (by norm_num)⟩

/-- C2: on a fresh `SplitOrderedList`, inserting 5, 13, 21, 37 (values
mirror) all succeed; each lookup then returns its value; delete(13)
succeeds returning 13; a later lookup of 13 gives none while 5, 21, 37
are still mapped; and the item counter `count` equals 3. -/
theorem c2_map_roundtrip :
    c2Ins.2 = true ∧
    (SO.lookupSO c2Ins.1 5).1 = some 5 ∧
    (SO.lookupSO c2Ins.1 13).1 = some 13 ∧
    (SO.lookupSO c2Ins.1 21).1 = some 21 ∧
    (SO.lookupSO c2Ins.1 37).1 = some 37 ∧
    c2Del.1 = .ok 13 ∧
    (SO.lookupSO c2Del.2 13).1 = none ∧
    (SO.lookupSO c2Del.2 5).1 = some 5 ∧
    (SO.lookupSO c2Del.2 21).1 = some 21 ∧
    (SO.lookupSO c2Del.2 37).1 = some 37 ∧
    c2Del.2.count = 3 := by
  decide

/-- State with user key 5 already present: one successful insert of
key 5 (value 5) into a fresh `SplitOrderedList`. -/
def c8S0 : SO.SOState Nat := (SO.insertSO (SO.initSO Nat) 5 5).2

/-- C8: on a well-formed `SplitOrderedList` state that already contains
the user key `k` (its split-ordered key `rev64(k)|1` has an
association), `insert(k, v)` returns `Err(v)`, handing the caller back
exactly the value it supplied, and leaves the map unchanged: the
counters `size` and `count` and the `lookup`-observable mapping of
every valid key are the same after the failed insert as before it. -/
theorem c8_insert_existing (V : Type) (s : SO.SOState V) (k : Nat)
    (v : V) (w : V) (hwf : SO.Wf s) (hk : k < 2 ^ 63)
    (hin : SO.userAssoc s.list (SO.revBits64 k ||| 1) = some w) :
    (SO.insertSO s k v).1 = Except.error v ∧
    SO.Wf (SO.insertSO s k v).2 ∧
    (SO.insertSO s k v).2.size = s.size ∧
    (SO.insertSO s k v).2.count = s.count ∧
    (∀ k2, k2 < 2 ^ 63 →
      (SO.lookupSO (SO.insertSO s k v).2 k2).1 = (SO.lookupSO s k2).1) := by
  obtain ⟨fwf, fsz, fcnt, fassoc, ffound1, _⟩ := SO.findSO_spec s k hwf hk
  have hfound : (SO.findSO s k).2.1 = true := ffound1 w hin
  have hins : SO.insertSO s k v = (Except.error v, (SO.findSO s k).1) := by
    simp only [SO.insertSO]
    rw [if_pos hfound]
  refine ⟨by rw [hins], by rw [hins]; exact fwf, by rw [hins]; exact fsz,
    by rw [hins]; exact fcnt, ?_⟩
  intro k2 hk2
  rw [hins]
  show (SO.lookupSO (SO.findSO s k).1 k2).1 = (SO.lookupSO s k2).1
  have heven2 : SO.revBits64 k2 % 2 = 0 := SO.revBits64_even k2 hk2
  have hodd2 : (SO.revBits64 k2 ||| 1) % 2 = 1 := by
    rw [SO.lor_one_even _ heven2]
    omega
  obtain ⟨l1, _, _, _, _⟩ := SO.lookupSO_spec (SO.findSO s k).1 k2 fwf hk2
  obtain ⟨l2, _, _, _, _⟩ := SO.lookupSO_spec s k2 hwf hk2
  rw [l1, l2]
  exact fassoc _ hodd2

/-- Witness for C8: inserting key 5 again (with value 7) into a state
built by one successful insert of key 5 (value 5). -/
theorem c8_insert_existing_witness :
    SO.Wf c8S0 ∧
    (SO.insertSO c8S0 5 7).1 = Except.error 7 ∧
    (SO.insertSO c8S0 5 7).2.size = c8S0.size ∧
    (SO.insertSO c8S0 5 7).2.count = c8S0.count ∧
    (SO.lookupSO (SO.insertSO c8S0 5 7).2 5).1 = (SO.lookupSO c8S0 5).1 := by
  have hwf : SO.Wf c8S0 := by
    refine ⟨⟨1, by norm_num, by norm_num, by decide⟩, ?_, by decide, by decide,
      by decide⟩
    show List.Pairwise (fun a b : SO.SNode Nat => a.1 < b.1) c8S0.list
    decide
  obtain ⟨h1, _, h3, h4, h5⟩ :=
    c8_insert_existing Nat c8S0 5 7 5 hwf (by norm_num) (by decide)
  exact ⟨hwf, h1, h3, h4, h5 5 (by norm_num)⟩
